import Mathlib

/-!
Shallow embedding of the `zarrs_zip` zip storage adapter (`src/lib.rs`,
`src/sync.rs`) together with proofs about its specification.

Conventions of the embedding:
* Rust `&str` values (zip entry names, store keys, store prefixes) are
  `List Char`, written `Str` below; Rust string primitives (`strip_prefix`,
  `find`, `trim_end_matches`, lexicographic `cmp`) are embedded as
  executable functions on `List Char`.
* Machine integers (`u16`, `u64`, `usize`) are `Nat`; the adapter only adds
  and saturating-subtracts offsets, `Nat` subtraction is Rust
  `saturating_sub`.
* The backing store (external collaborator, `zarrs_storage`) is modelled at
  its interface boundary: the adapter only ever reads the single key that
  holds the archive, so the store is represented by that key's content
  `blob : List Nat`, and a partial read returns the requested slice
  (clamped at the end of the blob, which is how the in-bounds reads issued
  by the adapter behave).
* The `rc_zip` archive parser and entry decompressor state machines
  (external collaborators, black boxes per the spec) are modelled by the
  trace of observable interactions they have with the adapter's pull/feed
  loops: each loop round records whether the machine asked for input, how
  much buffer space it offered, and the outcome of `process`.
* The decompression output buffer is `List (Option Nat)`: `none` is a byte
  of the pre-sized buffer that the machine never wrote (uninitialized
  memory in the Rust code), `some b` a byte the machine wrote.
-/

namespace ZarrsZip

/-- Rust string slices, embedded as lists of characters. -/
abbrev Str := List Char

/-- Lexicographic strict order on strings: Rust `str::cmp` is byte-wise
lexicographic comparison, embedded character-wise. -/
def strLt : Str → Str → Bool
  | [], [] => false
  | [], _ :: _ => true
  | _ :: _, [] => false
  | a :: as, b :: bs => if a < b then true else if b < a then false else strLt as bs

/-- Lexicographic non-strict order on strings. -/
def strLe (a b : Str) : Bool := !(strLt b a)

/-- Byte ranges of `zarrs_storage::byte_range::ByteRange` (external
interface): from an offset with an explicit length, from an offset to the
end, or the last `length` bytes. -/
inductive ByteRange where
  | fromStart (offset : Nat) (length : Option Nat)
  | suffix (length : Nat)
deriving DecidableEq

/-- Embeds `ByteRange::to_range_usize(size)` from `zarrs_storage` (external
interface): the concrete `start..stop` index range of a byte range inside a
buffer of length `size` (`Nat` subtraction saturates like the `u64`
arithmetic). -/
def ByteRange.toRangeUsize (size : Nat) : ByteRange → Nat × Nat
  | .fromStart o (some l) => (o, o + l)
  | .fromStart o none => (o, size)
  | .suffix l => (size - l, size)

/-- Entry kinds reported by the `rc_zip` parser (external interface). -/
inductive EntryKind where
  | file
  | directory
  | symlink
deriving DecidableEq

/-- Compression method of an entry: the adapter only distinguishes
`Method::Store` from every other (compressed) method. -/
inductive Method where
  | store
  | compressed
deriving DecidableEq

/-- An `rc_zip::parse::Entry` as consumed by the adapter (external
interface): name, kind, method, header offset and the recorded sizes. -/
structure Entry where
  name : Str
  kind : EntryKind
  method : Method
  headerOffset : Nat
  compressedSize : Nat
  uncompressedSize : Nat
deriving DecidableEq

/-- Embeds the crate's `ZipEntry` (`lib.rs`): an indexed key (file) or
indexed prefix (directory). -/
inductive ZipEntry where
  | key (k : Str)
  | pfx (p : Str)
deriving DecidableEq

/-- Embeds `ZipEntry::as_str` (`lib.rs`). -/
def ZipEntry.asStr : ZipEntry → Str
  | .key k => k
  | .pfx p => p

/-- Embeds the crate's `ZipStorageAdapter` struct (`lib.rs`): total archive
size, the backing store's content at the archive's key, the `HashMap` from
store key to entry (as an association list with most-recent-insert-first,
see `hmInsert`), and the sorted entry list. -/
structure ZipStorageAdapter where
  size : Nat
  blob : List Nat
  entries : List (Str × Entry)
  sorted_entries : List ZipEntry
deriving DecidableEq

/-- Embeds `HashMap::insert`: the new binding replaces any existing binding
of the same key (modelled by consing the new pair and dropping old ones,
so that `List.lookup` finds the newest binding). -/
def hmInsert (m : List (Str × Entry)) (k : Str) (v : Entry) : List (Str × Entry) :=
  (k, v) :: m.filter (fun kv => kv.1 ≠ k)

/-- Backing store partial read (external interface, modelled at the
boundary): return the bytes of `blob` covered by the byte range, clamped to
the end of the blob. -/
def storeReadRange (blob : List Nat) : ByteRange → List Nat
  | .fromStart o (some l) => (blob.drop o).take l
  | .fromStart o none => blob.drop o
  | .suffix l => blob.drop (blob.length - l)

/-! ### The pull/feed loops driving the external state machines -/

/-- Outcome of one `EntryFsm::process` call, as observed by the adapter:
continue having written the given bytes into the output slice, finish, or
fail. -/
inductive ProcOutcome where
  | cont (written : List Nat)
  | done
  | procError (msg : String)
deriving DecidableEq

/-- One round of the decompression pull/feed loop of `decompress_entry`
(`sync.rs`): whether the machine wants input, the free space of its input
buffer, and the `process` outcome. -/
structure FsmRound where
  wantsRead : Bool
  space : Nat
  outcome : ProcOutcome
deriving DecidableEq

/-- State threaded through the decompression loop: the storage read cursor,
the count of output bytes the machine has reported written, the output
buffer (with `none` for never-written bytes), and the log of byte ranges
requested from the backing store. -/
structure DecompSt where
  readOffset : Nat
  writeOffset : Nat
  buf : List (Option Nat)
  reads : List (Nat × Nat)
deriving DecidableEq

/-- How the pull/feed loop ended: the machine finished, the machine
reported an error, or the interaction trace ran out (the Rust loop would
keep polling the machine; a finite trace cannot represent that, so it is
surfaced as a distinguished exit). -/
inductive LoopExit where
  | finished
  | failed (msg : String)
  | starved
deriving DecidableEq

/-- Embeds the write of `outcome.bytes_written` decompressed bytes in
`decompress_entry` (`sync.rs` lines 259-273): the output slice passed to
`process` is `decompressed.spare_capacity_mut()`, whose pointer is the
start of the vector (its length stays `0` for the whole loop), so every
chunk lands at the start of the buffer. -/
def writeAtStart (buf : List (Option Nat)) (bytes : List Nat) : List (Option Nat) :=
  bytes.map some ++ buf.drop bytes.length

/-- Embeds the feed half of the `decompress_entry` loop body (`sync.rs`):
when the machine wants input, read `min(space, size - read_offset)` bytes
from the backing store if that is positive (logging the issued byte range)
and advance the read cursor; otherwise feed zero bytes (end of input). -/
def feedStep (size : Nat) (r : FsmRound) (st : DecompSt) : DecompSt :=
  if r.wantsRead then
    let toRead := min r.space (size - st.readOffset)
    if 0 < toRead then
      { st with
        readOffset := st.readOffset + toRead
        reads := st.reads ++ [(st.readOffset, toRead)] }
    else st
  else st

/-- Embeds the `process` half of the `decompress_entry` loop body: a
`Continue` outcome writes its chunk (truncated to the output slice length
`expected - write_offset`) and advances `write_offset`. -/
def decompRun (size expected : Nat) : List FsmRound → DecompSt → DecompSt × LoopExit
  | [], st => (st, .starved)
  | r :: rest, st =>
    let st1 := feedStep size r st
    match r.outcome with
    | .cont written =>
      let w := written.take (expected - st1.writeOffset)
      decompRun size expected rest
        { st1 with
          buf := writeAtStart st1.buf w
          writeOffset := st1.writeOffset + w.length }
    | .done => (st1, .finished)
    | .procError m => (st1, .failed m)

/-- Initial state of the decompression loop for an entry: read cursor at
the entry's local header, nothing written, the pre-sized output buffer
fully uninitialized. -/
def decompInit (entry : Entry) : DecompSt :=
  ⟨entry.headerOffset, 0, List.replicate entry.uncompressedSize none, []⟩

/-- Errors of read operations, mirroring the `StorageError` values the
adapter produces: the invalid-range error (with the offending range and
the entry's true size) or any other storage error. -/
inductive StorageErr where
  | invalidRange (r : ByteRange) (size : Nat)
  | other (msg : String)
deriving DecidableEq

/-- Embeds `decompress_entry` (`sync.rs`): drive the `EntryFsm` with the
pull/feed loop, then require the total reported written bytes to equal the
entry's uncompressed size, and only then expose the buffer (the Rust
`set_len`). -/
def decompressEntry (a : ZipStorageAdapter) (trace : List FsmRound) (entry : Entry) :
    Except StorageErr (List (Option Nat)) :=
  match decompRun a.size entry.uncompressedSize trace (decompInit entry) with
  | (st, .finished) =>
    if st.writeOffset = entry.uncompressedSize then .ok st.buf
    else .error (.other "zip decompressed entry size mismatch")
  | (_, .failed m) => .error (.other m)
  | (_, .starved) => .error (.other "entry fsm starved")

/-- Embeds `get_compressed_entry` (`sync.rs`): materialize the whole entry
via `decompress_entry`, then slice each requested range out of the buffer
(`range.to_range_usize`) and return one buffer per range, in request
order. -/
def getCompressedEntry (a : ZipStorageAdapter) (trace : List FsmRound) (entry : Entry)
    (byteRanges : List ByteRange) : Except StorageErr (Option (List (List (Option Nat)))) :=
  match decompressEntry a trace entry with
  | .error e => .error e
  | .ok dec =>
    .ok (some (byteRanges.map (fun r =>
      let s := r.toRangeUsize entry.uncompressedSize
      (dec.drop s.1).take (s.2 - s.1))))

/-- Embeds `calculate_data_offset` (`sync.rs`): read the 30-byte local file
header at `header_offset`, fail if fewer than 30 bytes come back, else
decode the two little-endian `u16` fields at byte offsets 26 and 28 and
return `header_offset + 30 + filename_len + extra_len`. -/
def calculateDataOffset (a : ZipStorageAdapter) (headerOffset : Nat) : Except StorageErr Nat :=
  let header := storeReadRange a.blob (.fromStart headerOffset (some 30))
  if header.length < 30 then .error (.other "Local file header too short")
  else
    .ok (headerOffset + 30 + (header.getD 26 0 + 256 * header.getD 27 0) +
      (header.getD 28 0 + 256 * header.getD 29 0))

/-- Embeds the range translation of `get_stored_entry` (`sync.rs`): shift a
logical range by the data offset; an open-ended range gets the explicit
length `uncompressed_size - start`, a suffix range becomes
`data_offset + uncompressed_size - len` with length
`min(len, uncompressed_size)`. -/
def translateRange (dataOffset usize : Nat) : ByteRange → ByteRange
  | .fromStart s l => .fromStart (dataOffset + s) (some (l.getD (usize - s)))
  | .suffix l => .fromStart (dataOffset + (usize - l)) (some (min l usize))

/-- Embeds `get_stored_entry` (`sync.rs`): compute the data offset from the
local header, translate every requested range, and delegate the translated
ranges to the backing store; the returned bytes are genuine store bytes,
so they are all initialized (`some`). -/
def getStoredEntry (a : ZipStorageAdapter) (entry : Entry) (byteRanges : List ByteRange) :
    Except StorageErr (Option (List (List (Option Nat)))) :=
  match calculateDataOffset a entry.headerOffset with
  | .error e => .error e
  | .ok off =>
    .ok (some (byteRanges.map (fun r =>
      (storeReadRange a.blob (translateRange off entry.uncompressedSize r)).map some)))

/-- Embeds the per-range bound computed by the validation loop of
`get_impl` (`sync.rs`): the saturating end offset a range must keep within
the uncompressed size (`Suffix` is clamped, its computed end is `0`). -/
def rangeEndOf : ByteRange → Nat
  | .fromStart s (some l) => s + l
  | .fromStart s none => s
  | .suffix _ => 0

/-- Embeds `get_impl` (`sync.rs`): absent key yields `Ok(None)`; otherwise
validate every requested range against the entry's uncompressed size
before any further work, failing the whole request on the first
out-of-bounds range; then dispatch on the method (stored fast path or
decompression). -/
def getImpl (a : ZipStorageAdapter) (trace : List FsmRound) (key : Str)
    (byteRanges : List ByteRange) : Except StorageErr (Option (List (List (Option Nat)))) :=
  match List.lookup key a.entries with
  | none => .ok none
  | some entry =>
    match byteRanges.find? (fun r => entry.uncompressedSize < rangeEndOf r) with
    | some r => .error (.invalidRange r entry.uncompressedSize)
    | none =>
      match entry.method with
      | .store => getStoredEntry a entry byteRanges
      | .compressed => getCompressedEntry a trace entry byteRanges

/-! ### Archive parsing loop -/

/-- Outcome of one `ArchiveFsm::process` call: continue, finish with the
parsed entry list, or fail. -/
inductive ParseOutcome where
  | cont
  | done (entries : List Entry)
  | parseError (msg : String)
deriving DecidableEq

/-- One round of the archive parsing pull/feed loop of `parse_archive`
(`sync.rs`): the offset the machine asked to read at (if any), its buffer
space and the `process` outcome. -/
structure ParseRound where
  wantsRead : Option Nat
  space : Nat
  outcome : ParseOutcome
deriving DecidableEq

/-- Embeds the feed half of the `parse_archive` loop body (`sync.rs`):
when the machine requests bytes at `offset`, read `min(space, size -
offset)` bytes from the backing store if that is positive (logging the
issued byte range), else feed zero bytes as end of input. -/
def parseFeed (size : Nat) (r : ParseRound) (reads : List (Nat × Nat)) :
    List (Nat × Nat) :=
  match r.wantsRead with
  | some off =>
    let toRead := min r.space (size - off)
    if 0 < toRead then reads ++ [(off, toRead)] else reads
  | none => reads

/-- Embeds the `process` half of the `parse_archive` loop body: continue,
finish with the parsed entries, or fail. -/
def parseRun (size : Nat) : List ParseRound → List (Nat × Nat) →
    List (Nat × Nat) × Except String (Option (List Entry))
  | [], reads => (reads, .ok none)
  | r :: rest, reads =>
    let reads1 := parseFeed size r reads
    match r.outcome with
    | .cont => parseRun size rest reads1
    | .done es => (reads1, .ok (some es))
    | .parseError m => (reads1, .error m)

/-! ### Store keys and prefixes (external `zarrs_storage` identifiers) -/

/-- No two adjacent characters of the string are both the separator.
Modelled from the spec: part of what it means for a stripped archive path
to be "validated as a well-formed key" or "well-formed prefix"
(`zarrs_storage` key/prefix syntax, an external collaborator specified at
its interface boundary). -/
def noDS : Str → Bool
  | [] => true
  | [_] => true
  | a :: b :: r => (!(a == '/' && b == '/')) && noDS (b :: r)

/-- Well-formed store key. Modelled from the spec: a key names a file, so
it is non-empty, has no leading or trailing separator and no empty
segment (`zarrs_storage::StoreKey` validation, external). -/
def validKey (k : Str) : Prop :=
  k ≠ [] ∧ k.head? ≠ some '/' ∧ k.getLast? ≠ some '/' ∧ noDS k = true

instance (k : Str) : Decidable (validKey k) :=
  inferInstanceAs
    (Decidable (k ≠ [] ∧ k.head? ≠ some '/' ∧ k.getLast? ≠ some '/' ∧ noDS k = true))

/-- Well-formed store prefix. Modelled from the spec: a prefix is either
the root (empty) or ends with exactly one separator per segment, with no
leading separator and no empty segment
(`zarrs_storage::StorePrefix` validation, external). -/
def validPfx (p : Str) : Prop :=
  p = [] ∨ (p.head? ≠ some '/' ∧ p.getLast? = some '/' ∧ noDS p = true)

instance (p : Str) : Decidable (validPfx p) :=
  inferInstanceAs
    (Decidable (p = [] ∨ (p.head? ≠ some '/' ∧ p.getLast? = some '/' ∧ noDS p = true)))

/-- Embeds `StoreKey::parent` from `zarrs_storage` (external interface):
the prefix of the key up to and including its last separator (the root
prefix when the key has no separator). -/
def parentOf (k : Str) : Str :=
  ((k.reverse).dropWhile (fun c => c ≠ '/')).reverse

/-- Embeds Rust `str::find('/')`: index of the first separator. -/
def firstSlash : Str → Option Nat
  | [] => none
  | c :: r => if c = '/' then some 0 else (firstSlash r).map (· + 1)

/-- Embeds `StorePrefix::try_from` (external interface): succeed exactly on
well-formed prefixes. -/
def tryFromPfx (s : Str) : Option Str :=
  if validPfx s then some s else none

/-- Embeds `immediate_child_prefix` (`lib.rs`): strip the query prefix from
the key, locate the first separator of the remainder, and extend the query
prefix by that one segment (separator included); `None` when the key is
not under the prefix or has no deeper segment. -/
def immediateChildPfx (key pfx : Str) : Option Str :=
  if pfx.isPrefixOf key then
    let suf := key.drop pfx.length
    match firstSlash suf with
    | some i => tryFromPfx (pfx ++ suf.take (i + 1))
    | none => none
  else none

/-! ### Index construction -/

/-- Embeds `strip_zip_path_prefix` (`lib.rs`): strip the adapter's root
path from an entry name, discarding the entry when the name is not under
the root or the remainder is empty. -/
def stripZipPathPre (name zipPath : Str) : Option Str :=
  if zipPath.isPrefixOf name then
    let r := name.drop zipPath.length
    if r = [] then none else some r
  else none

/-- Construction errors, mirroring `ZipStorageAdapterCreateError`
(`lib.rs`). -/
inductive CreateErr where
  | unknownSize
  | zipError (msg : String)
  | invalidStoreKey (s : Str)
  | invalidStorePfx (s : Str)
deriving DecidableEq

/-- Embeds the entry-classification loop of `new_with_path` (`sync.rs`
lines 50-69): per parsed entry, strip the root path, then insert files
into the key map and the sorted list, append directories to the sorted
list, drop symlinks; a stripped name failing key or prefix validation
aborts the whole construction. -/
def buildEntriesLoop (zipPath : Str) :
    List Entry → List (Str × Entry) → List ZipEntry →
    Except CreateErr (List (Str × Entry) × List ZipEntry)
  | [], m, l => .ok (m, l)
  | e :: rest, m, l =>
    match stripZipPathPre e.name zipPath with
    | none => buildEntriesLoop zipPath rest m l
    | some stripped =>
      match e.kind with
      | .file =>
        if validKey stripped then
          buildEntriesLoop zipPath rest (hmInsert m stripped e) (l ++ [.key stripped])
        else .error (.invalidStoreKey stripped)
      | .directory =>
        if validPfx stripped then
          buildEntriesLoop zipPath rest m (l ++ [.pfx stripped])
        else .error (.invalidStorePfx stripped)
      | .symlink => buildEntriesLoop zipPath rest m l
termination_by structural es _ _ => es

/-- Ordering of indexed entries by their string form, as used by the
`sort_by(|a, b| a.as_str().cmp(b.as_str()))` call of `new_with_path`. -/
def entLe (a b : ZipEntry) : Prop := strLe a.asStr b.asStr = true

instance : DecidableRel entLe := fun a b =>
  inferInstanceAs (Decidable (strLe a.asStr b.asStr = true))

/-- Embeds `new_with_path` (`sync.rs`): query the archive's size (failing
when unknown), drive the parser state machine to completion over the
backing store, classify and index the parsed entries, and sort the
combined entry list lexicographically by string form (the Rust stable
comparison sort is modelled by insertion sort; the claims constrain the
result only up to sortedness and multiset equality, which every
comparison sort satisfies). -/
def newWithPath (blob : List Nat) (sizeQ : Option Nat) (ptrace : List ParseRound)
    (zipPath : Str) : Except CreateErr ZipStorageAdapter :=
  match sizeQ with
  | none => .error .unknownSize
  | some size =>
    match (parseRun size ptrace []).2 with
    | .error m => .error (.zipError m)
    | .ok none => .error (.zipError "archive fsm starved")
    | .ok (some es) =>
      match buildEntriesLoop zipPath es [] [] with
      | .error err => .error err
      | .ok (m, l) => .ok ⟨size, blob, m, List.insertionSort entLe l⟩

/-! ### Hierarchical listing engine -/

/-- Embeds `entries_with_prefix` (`lib.rs`): the two `partition_point`
probes over the sorted index, modelled by the documented contract of
`slice::partition_point` on a partitioned sequence — the first probe finds
the first entry not below the prefix, the second the end of the run of
entries starting with the prefix. -/
def entriesWithPfx (sorted : List ZipEntry) (p : Str) : List ZipEntry :=
  (sorted.dropWhile (fun e => strLt e.asStr p)).takeWhile
    (fun e => p.isPrefixOf e.asStr)

/-- Key projection used by the listing operations: the
`ZipEntry::Key(k) => Some(k), ZipEntry::Prefix(_) => None` match arms of
`list` and `list_prefix` (`sync.rs`). -/
def keyOf : ZipEntry → Option Str
  | .key k => some k
  | .pfx _ => none

/-- Embeds `list` (`sync.rs`): the keys of the sorted index, directories
filtered out. -/
def listKeys (sorted : List ZipEntry) : List Str :=
  sorted.filterMap keyOf

/-- Embeds `list_prefix` (`sync.rs`): the keys of the sorted index slice
matching the prefix. -/
def listPfxKeys (sorted : List ZipEntry) (p : Str) : List Str :=
  (entriesWithPfx sorted p).filterMap keyOf

/-- Embeds the body of the `list_dir` loop (`sync.rs`): a key whose parent
is the query prefix joins the key set; a deeper key contributes its
immediate child prefix unless it equals the last collected prefix; an
explicit prefix entry joins the prefix set when the remainder after the
query prefix is one trailing segment (no separator left after trimming
trailing separators) and differs from the last collected prefix. -/
def listDirLoop (p : Str) :
    List ZipEntry → List Str → List Str → List Str × List Str
  | [], keys, pfxs => (keys, pfxs)
  | e :: rest, keys, pfxs =>
    match e with
    | .key k =>
      if parentOf k = p then listDirLoop p rest (keys ++ [k]) pfxs
      else
        match immediateChildPfx k p with
        | some cp =>
          if pfxs.getLast? = some cp then listDirLoop p rest keys pfxs
          else listDirLoop p rest keys (pfxs ++ [cp])
        | none => listDirLoop p rest keys pfxs
    | .pfx q =>
      if p.isPrefixOf q then
        let suf := q.drop p.length
        if suf = [] then listDirLoop p rest keys pfxs
        else
          let trimmed := ((suf.reverse).dropWhile (fun c => c = '/')).reverse
          if ¬ trimmed.contains '/' ∧ pfxs.getLast? ≠ some q then
            listDirLoop p rest keys (pfxs ++ [q])
          else listDirLoop p rest keys pfxs
      else listDirLoop p rest keys pfxs
termination_by structural l _ _ => l

/-- Embeds `list_dir` (`sync.rs`): run the loop over the sorted index slice
matching the prefix, starting from empty key and prefix sets. -/
def listDirOp (sorted : List ZipEntry) (p : Str) : List Str × List Str :=
  listDirLoop p (entriesWithPfx sorted p) [] []

/-- Embeds `size_prefix` (`sync.rs`): over the sorted index slice matching
the prefix, look file keys up in the entry map and sum their
`compressed_size` fields; prefix entries contribute nothing. -/
def sizePfxOp (sorted : List ZipEntry) (entries : List (Str × Entry)) (p : Str) : Nat :=
  (((entriesWithPfx sorted p).filterMap
    (fun e => match e with | .key k => List.lookup k entries | .pfx _ => none)).map
      (fun e => e.compressedSize)).sum

/-! ### Lexicographic order lemmas -/

theorem strLt_irrefl : ∀ a : Str, strLt a a = false := by
  intro a
  induction a with
  | nil => simp [strLt]
  | cons x xs ih => simp [strLt, ih]

theorem strLt_asymm : ∀ a b : Str, strLt a b = true → strLt b a = false := by
  intro a
  induction a with
  | nil => intro b h; cases b <;> simp [strLt]
  | cons x xs ih =>
    intro b h
    cases b with
    | nil => simp [strLt] at h
    | cons y ys =>
      simp only [strLt] at h ⊢
      by_cases h1 : x < y
      · simp [h1, lt_asymm h1] at h ⊢
      · by_cases h2 : y < x
        · simp [h1, h2] at h
        · simp [h1, h2] at h ⊢
          exact ih ys h

theorem strLt_trans : ∀ a b c : Str, strLt a b = true → strLt b c = true →
    strLt a c = true := by
  intro a
  induction a with
  | nil =>
    intro b c hab hbc
    cases b with
    | nil => simp [strLt] at hab
    | cons y ys =>
      cases c with
      | nil => simp [strLt] at hbc
      | cons z zs => simp [strLt]
  | cons x xs ih =>
    intro b c hab hbc
    cases b with
    | nil => simp [strLt] at hab
    | cons y ys =>
      cases c with
      | nil => simp [strLt] at hbc
      | cons z zs =>
        simp only [strLt] at hab hbc ⊢
        by_cases hxy : x < y
        · by_cases hyz : y < z
          · simp [lt_trans hxy hyz]
          · by_cases hzy : z < y
            · simp [hyz, hzy] at hbc
            · have : y = z := le_antisymm (not_lt.mp hzy) (not_lt.mp hyz)
              subst this
              simp [hxy]
        · by_cases hyx : y < x
          · simp [hxy, hyx] at hab
          · have hx : x = y := le_antisymm (not_lt.mp hyx) (not_lt.mp hxy)
            subst hx
            simp only [hxy, if_neg, if_neg (lt_irrefl x)] at hab
            by_cases hyz : x < z
            · simp [hyz]
            · by_cases hzy : z < x
              · simp [hyz, hzy] at hbc
              · have : x = z := le_antisymm (not_lt.mp hzy) (not_lt.mp hyz)
                subst this
                simp only [lt_irrefl, if_neg, if_false] at hbc ⊢
                simp at hab hbc ⊢
                exact ih ys zs hab hbc

theorem strLt_conn : ∀ a b : Str, a ≠ b → strLt a b = true ∨ strLt b a = true := by
  intro a
  induction a with
  | nil =>
    intro b h
    cases b with
    | nil => exact absurd rfl h
    | cons y ys => left; simp [strLt]
  | cons x xs ih =>
    intro b h
    cases b with
    | nil => right; simp [strLt]
    | cons y ys =>
      by_cases hxy : x < y
      · left; simp [strLt, hxy]
      · by_cases hyx : y < x
        · right; simp [strLt, hyx]
        · have hx : x = y := le_antisymm (not_lt.mp hyx) (not_lt.mp hxy)
          subst hx
          have hne : xs ≠ ys := by
            intro he
            exact h (by rw [he])
          rcases ih ys hne with h1 | h1
          · left; simp [strLt, h1]
          · right; simp [strLt, h1]

theorem strLe_refl (a : Str) : strLe a a = true := by
  simp [strLe, strLt_irrefl]

theorem strLe_of_strLt {a b : Str} (h : strLt a b = true) : strLe a b = true := by
  simp [strLe, strLt_asymm a b h]

theorem strLe_total (a b : Str) : strLe a b = true ∨ strLe b a = true := by
  by_cases h : strLt b a = true
  · right
    simp [strLe, strLt_asymm b a h]
  · left
    simp [strLe]
    exact Bool.not_eq_true _ ▸ (Bool.eq_false_iff.mpr (fun hh => h hh))

theorem strLe_iff_not_strLt {a b : Str} : strLe a b = true ↔ strLt b a = false := by
  simp [strLe]

theorem strLe_antisymm {a b : Str} (h1 : strLe a b = true) (h2 : strLe b a = true) :
    a = b := by
  by_contra hne
  rcases strLt_conn a b hne with h | h
  · rw [strLe_iff_not_strLt] at h2
    rw [h] at h2
    exact Bool.noConfusion h2
  · rw [strLe_iff_not_strLt] at h1
    rw [h] at h1
    exact Bool.noConfusion h1

theorem strLe_trans {a b c : Str} (h1 : strLe a b = true) (h2 : strLe b c = true) :
    strLe a c = true := by
  rw [strLe_iff_not_strLt] at h1 h2 ⊢
  by_contra hca
  have hca' : strLt c a = true := by
    cases h : strLt c a
    · exact absurd h hca
    · rfl
  by_cases hab : a = b
  · subst hab
    rw [hca'] at h2
    exact Bool.noConfusion h2
  · rcases strLt_conn a b hab with h | h
    · have := strLt_trans c a b hca' h
      rw [this] at h2
      exact Bool.noConfusion h2
    · rw [h] at h1
      exact Bool.noConfusion h1

theorem isPrefixOf_not_strLt : ∀ p s : Str, p.isPrefixOf s = true →
    strLt s p = false := by
  intro p
  induction p with
  | nil =>
    intro s h
    cases s <;> simp [strLt]
  | cons c cs ih =>
    intro s h
    cases s with
    | nil => simp [List.isPrefixOf] at h
    | cons b bs =>
      simp only [List.isPrefixOf, Bool.and_eq_true, beq_iff_eq] at h
      obtain ⟨hcb, hp⟩ := h
      subst hcb
      simp [strLt, ih bs hp]

theorem isPrefixOf_strLe {p s : Str} (h : p.isPrefixOf s = true) :
    strLe p s = true := by
  rw [strLe_iff_not_strLt]
  exact isPrefixOf_not_strLt p s h

theorem isPrefixOf_between : ∀ p e₁ e₂ : Str, strLt e₁ p = false →
    strLt e₂ e₁ = false → p.isPrefixOf e₂ = true → p.isPrefixOf e₁ = true := by
  intro p
  induction p with
  | nil => intro e₁ e₂ _ _ _; simp [List.isPrefixOf]
  | cons c cs ih =>
    intro e₁ e₂ h1 h2 h3
    cases e₁ with
    | nil => simp [strLt] at h1
    | cons a as =>
      cases e₂ with
      | nil => simp [List.isPrefixOf] at h3
      | cons b bs =>
        simp only [List.isPrefixOf, Bool.and_eq_true, beq_iff_eq] at h3 ⊢
        obtain ⟨hcb, hp⟩ := h3
        subst hcb
        by_cases hac : a < c
        · simp [strLt, hac] at h1
        · by_cases hca : c < a
          · simp [strLt, hca] at h2
          · have : a = c := le_antisymm (not_lt.mp hca) (not_lt.mp hac)
            subst this
            refine ⟨rfl, ih as bs ?_ ?_ hp⟩
            · simpa [strLt, lt_irrefl] using h1
            · simpa [strLt, lt_irrefl] using h2

theorem strLt_append_same : ∀ (x u v : Str),
    strLt (x ++ u) (x ++ v) = strLt u v := by
  intro x
  induction x with
  | nil => intro u v; rfl
  | cons c cs ih => intro u v; simp [strLt, ih]

theorem seg_le : ∀ (u₁ u₂ r₁ r₂ : Str), '/' ∉ u₁ → '/' ∉ u₂ →
    strLt (u₂ ++ '/' :: r₂) (u₁ ++ '/' :: r₁) = false →
    strLt (u₂ ++ ['/']) (u₁ ++ ['/']) = false := by
  intro u₁
  induction u₁ with
  | nil =>
    intro u₂ r₁ r₂ _ h2 h
    cases u₂ with
    | nil => simp [strLt, strLt_irrefl]
    | cons d u₂' =>
      have hd : d ≠ '/' := fun he => h2 (he ▸ List.mem_cons_self d u₂')
      by_cases hlt : d < '/'
      · simp [strLt, hlt] at h
      · have hgt : '/' < d := lt_of_le_of_ne (not_lt.mp hlt) (Ne.symm hd)
        simp [strLt, hlt, hgt]
  | cons c u₁' ih =>
    intro u₂ r₁ r₂ h1 h2 h
    have hc : c ≠ '/' := fun he => h1 (he ▸ List.mem_cons_self c u₁')
    cases u₂ with
    | nil =>
      by_cases hlt : '/' < c
      · simp [strLt, hlt] at h
      · have hgt : c < '/' := lt_of_le_of_ne (not_lt.mp hlt) hc
        simp [strLt, lt_asymm hgt, hgt]
    | cons d u₂' =>
      have hd : d ≠ '/' := fun he => h2 (he ▸ List.mem_cons_self d u₂')
      by_cases hdc : d < c
      · simp [strLt, hdc] at h
      · by_cases hcd : c < d
        · simp [strLt, hcd, hdc]
        · have : c = d := le_antisymm (not_lt.mp hdc) (not_lt.mp hcd)
          subst this
          have h1' : '/' ∉ u₁' := fun hm => h1 (List.mem_cons_of_mem c hm)
          have h2' : '/' ∉ u₂' := fun hm => h2 (List.mem_cons_of_mem c hm)
          have h' : strLt (u₂' ++ '/' :: r₂) (u₁' ++ '/' :: r₁) = false := by
            simpa [strLt, lt_irrefl] using h
          simpa [strLt, lt_irrefl] using ih u₂' r₁ r₂ h1' h2' h'

theorem strLe_strLt_trans {a b c : Str} (h1 : strLe a b = true)
    (h2 : strLt b c = true) : strLt a c = true := by
  by_cases hab : a = b
  · subst hab; exact h2
  · rcases strLt_conn a b hab with h | h
    · exact strLt_trans a b c h h2
    · rw [strLe_iff_not_strLt, h] at h1
      exact Bool.noConfusion h1

/-! ### The sorted-slice lemma behind the binary-search probes -/

theorem takeWhile_isPrefixOf_eq_filter (p : Str) :
    ∀ l : List ZipEntry, l.Pairwise entLe → (∀ e ∈ l, strLt e.asStr p = false) →
    l.takeWhile (fun e => p.isPrefixOf e.asStr) =
      l.filter (fun e => p.isPrefixOf e.asStr) := by
  intro l
  induction l with
  | nil => intro _ _; rfl
  | cons e rest ih =>
    intro hs hge
    rw [List.pairwise_cons] at hs
    obtain ⟨he, hrest⟩ := hs
    by_cases hp : p.isPrefixOf e.asStr = true
    · simp only [List.takeWhile_cons, List.filter_cons, hp, if_pos]
      rw [ih hrest (fun x hx => hge x (List.mem_cons_of_mem e hx))]
    · have hp' : p.isPrefixOf e.asStr = false := Bool.eq_false_iff.mpr hp
      simp only [List.takeWhile_cons, List.filter_cons, hp']
      simp only [Bool.false_eq_true, if_false, cond_false]
      have : ∀ x ∈ rest, ¬ (p.isPrefixOf x.asStr = true) := by
        intro x hx hpx
        have hxe : strLt x.asStr e.asStr = false := by
          rw [← strLe_iff_not_strLt]
          exact he x hx
        exact hp (isPrefixOf_between p e.asStr x.asStr (hge e (List.mem_cons_self e rest)) hxe hpx)
      rw [List.filter_eq_nil_iff.mpr (by intro a ha; simpa using this a ha)]

theorem entriesWithPfx_eq_filter (sorted : List ZipEntry) (p : Str)
    (hs : sorted.Pairwise entLe) :
    entriesWithPfx sorted p = sorted.filter (fun e => p.isPrefixOf e.asStr) := by
  induction sorted with
  | nil => rfl
  | cons e rest ih =>
    rw [List.pairwise_cons] at hs
    obtain ⟨he, hrest⟩ := hs
    by_cases hlt : strLt e.asStr p = true
    · have hp' : p.isPrefixOf e.asStr = false := by
        cases h : p.isPrefixOf e.asStr
        · rfl
        · rw [isPrefixOf_not_strLt p e.asStr h] at hlt
          exact Bool.noConfusion hlt
      unfold entriesWithPfx
      rw [List.dropWhile_cons]
      simp only [hlt, if_pos]
      rw [List.filter_cons, hp']
      simpa [entriesWithPfx] using ih hrest
    · have hlt' : strLt e.asStr p = false := Bool.eq_false_iff.mpr hlt
      unfold entriesWithPfx
      rw [List.dropWhile_cons]
      simp only [hlt', Bool.false_eq_true, if_false]
      apply takeWhile_isPrefixOf_eq_filter
      · exact List.pairwise_cons.mpr ⟨he, hrest⟩
      · intro x hx
        rcases List.mem_cons.mp hx with h | h
        · subst h; exact hlt'
        · cases hxp : strLt x.asStr p
          · rfl
          · have := strLe_strLt_trans (he x h) hxp
            rw [this] at hlt'
            exact Bool.noConfusion hlt'

theorem asStr_key (k : Str) : (ZipEntry.key k).asStr = k := rfl

theorem asStr_pfx (q : Str) : (ZipEntry.pfx q).asStr = q := rfl

theorem keyOf_key (k : Str) : keyOf (ZipEntry.key k) = some k := rfl

theorem keyOf_pfx (q : Str) : keyOf (ZipEntry.pfx q) = none := rfl

theorem filterMap_keyOf_filter (p : Str) :
    ∀ l : List ZipEntry,
    (l.filter (fun e => p.isPrefixOf e.asStr)).filterMap keyOf =
      (l.filterMap keyOf).filter (fun k => p.isPrefixOf k) := by
  intro l
  induction l with
  | nil => rfl
  | cons e rest ih =>
    cases e with
    | key k =>
      by_cases hp : p.isPrefixOf k = true
      · simp only [List.filter_cons, asStr_key, hp, if_pos, List.filterMap_cons,
          keyOf_key]
        rw [ih]
      · have hp' : p.isPrefixOf k = false := Bool.eq_false_iff.mpr hp
        simp only [List.filter_cons, asStr_key, hp', Bool.false_eq_true, if_false]
        simp only [List.filterMap_cons, keyOf_key, List.filter_cons, hp',
          Bool.false_eq_true, if_false]
        exact ih
    | pfx q =>
      by_cases hp : p.isPrefixOf q = true
      · simp only [List.filter_cons, asStr_pfx, hp, if_pos, List.filterMap_cons,
          keyOf_pfx]
        exact ih
      · have hp' : p.isPrefixOf q = false := Bool.eq_false_iff.mpr hp
        simp only [List.filter_cons, asStr_pfx, hp', Bool.false_eq_true, if_false,
          List.filterMap_cons, keyOf_pfx]
        exact ih

/-- C6: for every prefix P, `list_prefix(P)` equals exactly the subsequence
of `list()` consisting of the keys whose string form starts with P, in the
same relative order, the matching slice being the one located by the two
partition-point probes of `entries_with_prefix` over the lexicographically
sorted index. -/
theorem listPfxKeys_eq_filter_listKeys (sorted : List ZipEntry) (p : Str)
    (hs : sorted.Pairwise entLe) :
    listPfxKeys sorted p = (listKeys sorted).filter (fun k => p.isPrefixOf k) := by
  unfold listPfxKeys listKeys
  rw [entriesWithPfx_eq_filter sorted p hs, filterMap_keyOf_filter]

/-- Witness for C6 at the spec's round-trip scenario index. -/
theorem listPfxKeys_eq_filter_listKeys_witness :
    listPfxKeys
        [ZipEntry.key "a/b/zarr.json".toList, ZipEntry.key "a/c/zarr.json".toList,
         ZipEntry.key "a/d/e/zarr.json".toList, ZipEntry.key "b/zarr.json".toList,
         ZipEntry.key "c/zarr.json".toList] "a/".toList =
      (listKeys
        [ZipEntry.key "a/b/zarr.json".toList, ZipEntry.key "a/c/zarr.json".toList,
         ZipEntry.key "a/d/e/zarr.json".toList, ZipEntry.key "b/zarr.json".toList,
         ZipEntry.key "c/zarr.json".toList]).filter
        (fun k => ("a/".toList).isPrefixOf k) :=
  listPfxKeys_eq_filter_listKeys _ _ (by decide)

/-! ### Absent keys (C8) -/

/-- C8: for every key absent from the index, `get_partial_many` returns the
explicit absent result `Ok(None)` rather than an error, regardless of the
requested byte ranges. -/
theorem getImpl_absent (a : ZipStorageAdapter) (trace : List FsmRound) (k : Str)
    (ranges : List ByteRange) (h : List.lookup k a.entries = none) :
    getImpl a trace k ranges = .ok none := by
  unfold getImpl
  rw [h]

/-- Witness for C8: an adapter whose index lacks the key. -/
theorem getImpl_absent_witness :
    getImpl ⟨0, [], [], []⟩ [] ['x'] [ByteRange.suffix 5] = .ok none :=
  getImpl_absent ⟨0, [], [], []⟩ [] ['x'] [ByteRange.suffix 5] (by decide)

/-! ### Range validation (C2) -/

/-- Discriminator for the invalid-range error of a read result. -/
def isInvalidRangeErr : Except StorageErr (Option (List (List (Option Nat)))) → Bool
  | .error (.invalidRange _ _) => true
  | _ => false

theorem getStoredEntry_not_invalidRange (a : ZipStorageAdapter) (entry : Entry)
    (ranges : List ByteRange) :
    isInvalidRangeErr (getStoredEntry a entry ranges) = false := by
  unfold getStoredEntry calculateDataOffset
  by_cases h : (storeReadRange a.blob (.fromStart entry.headerOffset (some 30))).length < 30
  · simp [h, isInvalidRangeErr]
  · simp [h, isInvalidRangeErr]

theorem getCompressedEntry_not_invalidRange (a : ZipStorageAdapter)
    (trace : List FsmRound) (entry : Entry) (ranges : List ByteRange) :
    isInvalidRangeErr (getCompressedEntry a trace entry ranges) = false := by
  unfold getCompressedEntry decompressEntry
  rcases hrun : decompRun a.size entry.uncompressedSize trace (decompInit entry) with ⟨st, ex⟩
  cases ex with
  | finished =>
    by_cases h : st.writeOffset = entry.uncompressedSize
    · simp [h, isInvalidRangeErr]
    · simp [h, isInvalidRangeErr]
  | failed m => simp [isInvalidRangeErr]
  | starved => simp [isInvalidRangeErr]

/-- C2: for a key present in the index, `get_partial_many` fails with the
invalid-range error exactly when some requested range is out of bounds,
where the computed end that must stay within the uncompressed size is
`N + L` for "from offset N for L bytes", `N` for "from offset N to end"
(valid iff N is at most the size), and `0` for a "last L bytes" suffix
range (clamped, so the check against the uncompressed size always passes);
the whole batch fails on the first out-of-bounds range, before the stored
or compressed read path runs; and every successful result maps each
requested range through one per-range read function that sends the
zero-length range starting exactly at the uncompressed size to the empty
buffer. -/
theorem getImpl_range_validation (a : ZipStorageAdapter) (trace : List FsmRound)
    (k : Str) (e : Entry) (ranges : List ByteRange)
    (h : List.lookup k a.entries = some e) :
    (isInvalidRangeErr (getImpl a trace k ranges) = true ↔
      ∃ r ∈ ranges, e.uncompressedSize < rangeEndOf r) ∧
    (∀ n l, rangeEndOf (ByteRange.fromStart n (some l)) = n + l) ∧
    (∀ n, rangeEndOf (ByteRange.fromStart n none) = n) ∧
    (∀ l, ¬ e.uncompressedSize < rangeEndOf (ByteRange.suffix l)) ∧
    (∀ bufs, getImpl a trace k ranges = .ok (some bufs) →
      ∃ f, bufs = ranges.map f ∧
        f (ByteRange.fromStart e.uncompressedSize (some 0)) = ([] : List (Option Nat))) := by
  refine ⟨?_, fun n l => rfl, fun n => rfl, fun l => by simp [rangeEndOf], ?_⟩
  · rcases hf : ranges.find? (fun r => e.uncompressedSize < rangeEndOf r) with _ | r
    · constructor
      · intro hinv
        exfalso
        cases hm : e.method
        · simp only [getImpl, h, hf, hm, getStoredEntry_not_invalidRange,
            Bool.false_eq_true] at hinv
        · simp only [getImpl, h, hf, hm, getCompressedEntry_not_invalidRange,
            Bool.false_eq_true] at hinv
      · intro ⟨r, hr, hlt⟩
        have := List.find?_eq_none.mp hf r hr
        simp [hlt] at this
    · constructor
      · intro _
        refine ⟨r, List.mem_of_find?_eq_some hf, ?_⟩
        have := List.find?_some hf
        simpa using this
      · intro _
        simp [getImpl, h, hf, isInvalidRangeErr]
  · intro bufs hok
    rcases hf : ranges.find? (fun r => e.uncompressedSize < rangeEndOf r) with _ | r
    · cases hm : e.method
      · simp only [getImpl, h, hf, hm, getStoredEntry] at hok
        rcases hc : calculateDataOffset a e.headerOffset with err | off
        · rw [hc] at hok
          exact absurd hok (by simp)
        · rw [hc] at hok
          simp only [Except.ok.injEq, Option.some.injEq] at hok
          refine ⟨fun r =>
            (storeReadRange a.blob (translateRange off e.uncompressedSize r)).map some,
            hok.symm, ?_⟩
          simp [translateRange, storeReadRange]
      · simp only [getImpl, h, hf, hm, getCompressedEntry] at hok
        rcases hd : decompressEntry a trace e with err | dec
        · rw [hd] at hok
          exact absurd hok (by simp)
        · rw [hd] at hok
          simp only [Except.ok.injEq, Option.some.injEq] at hok
          refine ⟨fun r =>
            let s := r.toRangeUsize e.uncompressedSize
            (dec.drop s.1).take (s.2 - s.1), hok.symm, ?_⟩
          simp [ByteRange.toRangeUsize]
    · simp only [getImpl, h, hf] at hok
      exact absurd hok (by simp)

/-- Witness for C2: a stored 4-byte entry requested with the zero-length
range starting exactly at its uncompressed size; the range is valid and
the request returns one empty buffer. -/
theorem getImpl_range_validation_witness :
    (List.lookup ['x']
        (⟨39, List.replicate 26 7 ++ [1, 0, 0, 0] ++ [102] ++ [10, 20, 30, 40],
          [(['x'], ⟨['x'], .file, .store, 0, 4, 4⟩)],
          [ZipEntry.key ['x']]⟩ : ZipStorageAdapter).entries =
      some ⟨['x'], .file, .store, 0, 4, 4⟩) ∧
    (getImpl
        ⟨39, List.replicate 26 7 ++ [1, 0, 0, 0] ++ [102] ++ [10, 20, 30, 40],
          [(['x'], ⟨['x'], .file, .store, 0, 4, 4⟩)], [ZipEntry.key ['x']]⟩
        [] ['x'] [ByteRange.fromStart 4 (some 0)] = .ok (some [[]])) ∧
    ((isInvalidRangeErr
        (getImpl
          ⟨39, List.replicate 26 7 ++ [1, 0, 0, 0] ++ [102] ++ [10, 20, 30, 40],
            [(['x'], ⟨['x'], .file, .store, 0, 4, 4⟩)], [ZipEntry.key ['x']]⟩
          [] ['x'] [ByteRange.fromStart 4 (some 0)]) = true ↔
      ∃ r ∈ [ByteRange.fromStart 4 (some 0)], (4 : Nat) < rangeEndOf r) ∧
    (∀ n l, rangeEndOf (ByteRange.fromStart n (some l)) = n + l) ∧
    (∀ n, rangeEndOf (ByteRange.fromStart n none) = n) ∧
    (∀ l, ¬ (4 : Nat) < rangeEndOf (ByteRange.suffix l)) ∧
    (∀ bufs,
      getImpl
        ⟨39, List.replicate 26 7 ++ [1, 0, 0, 0] ++ [102] ++ [10, 20, 30, 40],
          [(['x'], ⟨['x'], .file, .store, 0, 4, 4⟩)], [ZipEntry.key ['x']]⟩
        [] ['x'] [ByteRange.fromStart 4 (some 0)] = .ok (some bufs) →
      ∃ f, bufs = [ByteRange.fromStart 4 (some 0)].map f ∧
        f (ByteRange.fromStart 4 (some 0)) = ([] : List (Option Nat)))) :=
  ⟨by decide, by rfl,
    getImpl_range_validation
      ⟨39, List.replicate 26 7 ++ [1, 0, 0, 0] ++ [102] ++ [10, 20, 30, 40],
        [(['x'], ⟨['x'], .file, .store, 0, 4, 4⟩)], [ZipEntry.key ['x']]⟩
      [] ['x'] ⟨['x'], .file, .store, 0, 4, 4⟩ [ByteRange.fromStart 4 (some 0)]
      (by decide)⟩

/-! ### Reads stay within the archive (C10) -/

theorem feedStep_reads_bound (size : Nat) (r : FsmRound) (st : DecompSt)
    (h : ∀ q ∈ st.reads, 0 < q.2 ∧ q.1 + q.2 ≤ size) :
    ∀ q ∈ (feedStep size r st).reads, 0 < q.2 ∧ q.1 + q.2 ≤ size := by
  unfold feedStep
  by_cases hw : r.wantsRead
  · by_cases hpos : 0 < min r.space (size - st.readOffset)
    · simp only [hw, if_true, hpos, if_pos]
      intro q hq
      rcases List.mem_append.mp hq with hmem | hmem
      · exact h q hmem
      · rcases List.mem_singleton.mp hmem with rfl
        refine ⟨hpos, ?_⟩
        have h1 : min r.space (size - st.readOffset) ≤ size - st.readOffset :=
          min_le_right _ _
        omega
    · simp only [hw, if_true, hpos, if_neg, if_false]
      exact h
  · simp only [hw, Bool.false_eq_true, if_false]
    exact h

theorem decompRun_reads_bound (size expected : Nat) :
    ∀ (trace : List FsmRound) (st : DecompSt),
    (∀ q ∈ st.reads, 0 < q.2 ∧ q.1 + q.2 ≤ size) →
    ∀ q ∈ ((decompRun size expected trace st).1).reads, 0 < q.2 ∧ q.1 + q.2 ≤ size := by
  intro trace
  induction trace with
  | nil => intro st h q hq; exact h q hq
  | cons r rest ih =>
    intro st h q hq
    have hread := feedStep_reads_bound size r st h
    rcases hoc : r.outcome with written | _ | m
    · simp only [decompRun, hoc] at hq
      refine ih _ ?_ q hq
      exact fun q2 hq2 => hread q2 hq2
    · simp only [decompRun, hoc] at hq
      exact hread q hq
    · simp only [decompRun, hoc] at hq
      exact hread q hq

theorem parseFeed_reads_bound (size : Nat) (r : ParseRound)
    (reads : List (Nat × Nat))
    (h : ∀ q ∈ reads, 0 < q.2 ∧ q.1 + q.2 ≤ size) :
    ∀ q ∈ parseFeed size r reads, 0 < q.2 ∧ q.1 + q.2 ≤ size := by
  unfold parseFeed
  rcases hw : r.wantsRead with _ | off
  · exact h
  · by_cases hpos : 0 < min r.space (size - off)
    · simp only [hpos, if_pos]
      intro q hq
      rcases List.mem_append.mp hq with hmem | hmem
      · exact h q hmem
      · rcases List.mem_singleton.mp hmem with rfl
        refine ⟨hpos, ?_⟩
        have h1 : min r.space (size - off) ≤ size - off := min_le_right _ _
        omega
    · simp only [hpos, if_neg, if_false]
      exact h

theorem parseRun_reads_bound (size : Nat) :
    ∀ (trace : List ParseRound) (reads : List (Nat × Nat)),
    (∀ q ∈ reads, 0 < q.2 ∧ q.1 + q.2 ≤ size) →
    ∀ q ∈ (parseRun size trace reads).1, 0 < q.2 ∧ q.1 + q.2 ≤ size := by
  intro trace
  induction trace with
  | nil => intro reads h q hq; exact h q hq
  | cons r rest ih =>
    intro reads h q hq
    have hread := parseFeed_reads_bound size r reads h
    rcases hoc : r.outcome with _ | es | m
    · simp only [parseRun, hoc] at hq
      refine ih _ ?_ q hq
      exact fun q2 hq2 => hread q2 hq2
    · simp only [parseRun, hoc] at hq
      exact hread q hq
    · simp only [parseRun, hoc] at hq
      exact hread q hq

/-- C10: every byte-range read issued to the backing store by the
archive-parsing loop and by the entry-decompression loop has positive
length `min(buffer space, archive_size - offset)` and lies entirely within
`[0, archive_size)`; when nothing remains no read is issued (the machine
is fed zero bytes instead). -/
theorem loop_reads_within_archive (size : Nat) (ptrace : List ParseRound)
    (dtrace : List FsmRound) (entry : Entry) :
    (∀ q ∈ (parseRun size ptrace []).1, 0 < q.2 ∧ q.1 + q.2 ≤ size) ∧
    (∀ q ∈ ((decompRun size entry.uncompressedSize dtrace (decompInit entry)).1).reads,
      0 < q.2 ∧ q.1 + q.2 ≤ size) :=
  ⟨parseRun_reads_bound size ptrace [] (by simp),
   decompRun_reads_bound size entry.uncompressedSize dtrace (decompInit entry)
     (by simp [decompInit])⟩

/-- Witness for C10: the read logged by a concrete parse trace is in
bounds. -/
theorem loop_reads_within_archive_witness : 0 < (1 : Nat) ∧ 0 + 1 ≤ (2 : Nat) :=
  (loop_reads_within_archive 2 [⟨some 0, 1, .cont⟩] [] ⟨['x'], .file, .store, 0, 0, 0⟩).1
    (0, 1) (by decide)

/-! ### Stored-entry fast path (C4) -/

/-- Spec-side data-offset formula of C4: `header_offset + 30 + filename_len
+ extra_len`, where `filename_len` and `extra_len` are the little-endian
16-bit fields at byte offsets 26 and 28 of the 30-byte local file header
read from the backing store at `header_offset`. -/
def specDataOffset (blob : List Nat) (headerOffset : Nat) : Nat :=
  headerOffset + 30 +
    (((blob.drop headerOffset).take 30).getD 26 0 +
      256 * ((blob.drop headerOffset).take 30).getD 27 0) +
    (((blob.drop headerOffset).take 30).getD 28 0 +
      256 * ((blob.drop headerOffset).take 30).getD 29 0)

theorem calculateDataOffset_ok (a : ZipStorageAdapter) (headerOffset : Nat)
    (hh : headerOffset + 30 ≤ a.blob.length) :
    calculateDataOffset a headerOffset = .ok (specDataOffset a.blob headerOffset) := by
  have hlen : (storeReadRange a.blob (.fromStart headerOffset (some 30))).length = 30 := by
    simp only [storeReadRange, List.length_take, List.length_drop]
    omega
  simp only [calculateDataOffset]
  rw [if_neg (by rw [hlen]; omega)]
  simp [specDataOffset, storeReadRange]

/-- C4: for every stored entry whose key is in the index, given valid
requested ranges and a local header fully inside the archive blob,
`get_partial_many` returns exactly the bytes that direct backing-store
access would return at each range translated by the data offset
`header_offset + 30 + filename_len + extra_len` (the two little-endian
16-bit fields at byte offsets 26 and 28 of the 30-byte local header), with
a suffix range of length L translated to start
`data_offset + uncompressed_size - L` and length
`min(L, uncompressed_size)`. -/
theorem getImpl_stored (a : ZipStorageAdapter) (trace : List FsmRound) (k : Str)
    (e : Entry) (ranges : List ByteRange)
    (h : List.lookup k a.entries = some e)
    (hm : e.method = .store)
    (hv : ∀ r ∈ ranges, rangeEndOf r ≤ e.uncompressedSize)
    (hh : e.headerOffset + 30 ≤ a.blob.length) :
    getImpl a trace k ranges = .ok (some (ranges.map (fun r =>
      (storeReadRange a.blob
        (translateRange (specDataOffset a.blob e.headerOffset)
          e.uncompressedSize r)).map some))) := by
  have hf : ranges.find? (fun r => e.uncompressedSize < rangeEndOf r) = none := by
    rw [List.find?_eq_none]
    intro r hr
    simpa using hv r hr
  simp only [getImpl, h, hf, hm, getStoredEntry,
    calculateDataOffset_ok a e.headerOffset hh]

/-- Witness for C4: a stored 4-byte entry behind a 30-byte local header
with a 1-byte filename; an explicit range, a suffix range and an
open-ended range each return the translated backing-store slice. -/
theorem getImpl_stored_witness :
    getImpl
        ⟨39, List.replicate 26 7 ++ [1, 0, 0, 0] ++ [102] ++ [10, 20, 30, 40],
          [(['x'], ⟨['x'], .file, .store, 0, 4, 4⟩)], [ZipEntry.key ['x']]⟩
        [] ['x'] [ByteRange.fromStart 1 (some 2), ByteRange.suffix 3,
          ByteRange.fromStart 2 none] =
      .ok (some ([ByteRange.fromStart 1 (some 2), ByteRange.suffix 3,
          ByteRange.fromStart 2 none].map (fun r =>
        (storeReadRange (List.replicate 26 7 ++ [1, 0, 0, 0] ++ [102] ++ [10, 20, 30, 40])
          (translateRange
            (specDataOffset (List.replicate 26 7 ++ [1, 0, 0, 0] ++ [102] ++ [10, 20, 30, 40]) 0)
            4 r)).map some))) :=
  getImpl_stored
    ⟨39, List.replicate 26 7 ++ [1, 0, 0, 0] ++ [102] ++ [10, 20, 30, 40],
      [(['x'], ⟨['x'], .file, .store, 0, 4, 4⟩)], [ZipEntry.key ['x']]⟩
    [] ['x'] ⟨['x'], .file, .store, 0, 4, 4⟩
    [ByteRange.fromStart 1 (some 2), ByteRange.suffix 3, ByteRange.fromStart 2 none]
    (by decide) (by decide) (by decide) (by decide)

/-! ### The decompression write bug (C1, C3) -/

/-- Two-chunk compressed entry exercising the decompression loop: two
bytes, delivered by the machine as two one-byte `Continue` writes. -/
def bugEntryA : Entry := ⟨['x'], .file, .compressed, 0, 2, 2⟩

/-- Adapter holding `bugEntryA`. -/
def bugAdapterA : ZipStorageAdapter := ⟨2, [9, 9], [(['x'], bugEntryA)], [.key ['x']]⟩

/-- Machine trace for `bugEntryA`: the decompressor consumes one input
byte per round and reports writing `[55]` then `[66]` (so the recorded
uncompressed content is `[55, 66]`), then finishes. -/
def bugTraceA : List FsmRound :=
  [⟨true, 1, .cont [55]⟩, ⟨true, 1, .cont [66]⟩, ⟨false, 0, .done⟩]

/-- C1 (failing at the code): for the two-chunk compressed entry
`bugEntryA`, the full-range read `[0, uncompressed_size)` via
`get_partial_many` does not reconstruct the machine's recorded
uncompressed content `[55, 66]` — the loop passes
`decompressed.spare_capacity_mut()` (whose pointer never advances, the
vector's length staying `0`) to every `process` call, so the second chunk
overwrites the first at the start of the buffer and the returned buffer is
`[66, uninitialized]`. -/
theorem getImpl_compressed_two_chunks :
    getImpl bugAdapterA bugTraceA ['x'] [ByteRange.fromStart 0 (some 2)] =
      .ok (some [[some 66, none]]) ∧
    [some 66, none] ≠ [55, 66].map some := by
  exact ⟨rfl, by decide⟩

/-- Three-byte compressed entry whose machine trace writes `[7, 8]` then
`[9]`. -/
def bugEntryB : Entry := ⟨['y'], .file, .compressed, 0, 3, 3⟩

/-- Adapter holding `bugEntryB`. -/
def bugAdapterB : ZipStorageAdapter := ⟨3, [9, 9, 9], [(['y'], bugEntryB)], [.key ['y']]⟩

/-- Machine trace for `bugEntryB`: chunks `[7, 8]` and `[9]`, then done. -/
def bugTraceB : List FsmRound :=
  [⟨true, 2, .cont [7, 8]⟩, ⟨true, 1, .cont [9]⟩, ⟨false, 0, .done⟩]

/-- C3 (failing at the code): after the write-count check
`write_offset == expected_size` passes, `decompress_entry` exposes the
whole pre-sized buffer, yet for the two-chunk trace of `bugEntryB` the
machine never wrote its last byte (the chunks landed at the buffer's
start), so a byte the decompressor never reported as written — `none`,
uninitialized memory in the Rust code — is exposed to the caller. -/
theorem decompressEntry_exposes_unwritten :
    decompressEntry bugAdapterB bugTraceB bugEntryB =
      .ok [some 9, some 8, none] ∧
    none ∈ [some 9, some 8, (none : Option Nat)] := by
  exact ⟨rfl, by decide⟩

/-- Decidable equality of fallible results, used to evaluate the embedded
operations at concrete inputs. -/
instance {e a : Type} [DecidableEq e] [DecidableEq a] : DecidableEq (Except e a) :=
  fun x y =>
    match x, y with
    | .error u, .error v =>
      if h : u = v then .isTrue (by rw [h])
      else .isFalse (fun hh => h (by injection hh))
    | .error _, .ok _ => .isFalse (fun hh => Except.noConfusion hh)
    | .ok _, .error _ => .isFalse (fun hh => Except.noConfusion hh)
    | .ok u, .ok v =>
      if h : u = v then .isTrue (by rw [h])
      else .isFalse (fun hh => h (by injection hh))

/-! ### Construction and `list()` (C7) -/

/-- Classification of one parsed entry by the construction loop: the
indexed entry it appends to the sorted list, if any (files become keys,
directories become prefixes, symlinks and out-of-root entries nothing). -/
def entryToZip (zipPath : Str) (e : Entry) : Option ZipEntry :=
  match stripZipPathPre e.name zipPath with
  | none => none
  | some s =>
    match e.kind with
    | .file => some (.key s)
    | .directory => some (.pfx s)
    | .symlink => none

/-- The store keys contributed by the archive's `File` entries after
root-prefix stripping, in archive order. -/
def fileKeysOf (es : List Entry) (zipPath : Str) : List Str :=
  es.filterMap (fun e =>
    match e.kind with
    | .file => stripZipPathPre e.name zipPath
    | _ => none)

instance : IsTrans ZipEntry entLe :=
  ⟨fun _ _ _ hab hbc => strLe_trans hab hbc⟩

instance : IsTotal ZipEntry entLe :=
  ⟨fun a b => strLe_total a.asStr b.asStr⟩

theorem buildEntriesLoop_list (zipPath : Str) :
    ∀ (es : List Entry) (m : List (Str × Entry)) (l : List ZipEntry)
      (m' : List (Str × Entry)) (l' : List ZipEntry),
    buildEntriesLoop zipPath es m l = .ok (m', l') →
    l' = l ++ es.filterMap (entryToZip zipPath) := by
  intro es
  induction es with
  | nil =>
    intro m l m' l' h
    simp only [buildEntriesLoop, Except.ok.injEq, Prod.mk.injEq] at h
    simp [h.2]
  | cons e rest ih =>
    intro m l m' l' h
    rcases hs : stripZipPathPre e.name zipPath with _ | s
    · simp only [buildEntriesLoop, hs] at h
      simp only [List.filterMap_cons, entryToZip, hs]
      exact ih m l m' l' h
    · rcases hk : e.kind
      · simp only [buildEntriesLoop, hs, hk] at h
        by_cases hv : validKey s
        · rw [if_pos hv] at h
          have := ih _ _ _ _ h
          simp only [List.filterMap_cons, entryToZip, hs, hk, this]
          simp
        · rw [if_neg hv] at h
          exact absurd h (by simp)
      · simp only [buildEntriesLoop, hs, hk] at h
        by_cases hv : validPfx s
        · rw [if_pos hv] at h
          have := ih _ _ _ _ h
          simp only [List.filterMap_cons, entryToZip, hs, hk, this]
          simp
        · rw [if_neg hv] at h
          exact absurd h (by simp)
      · simp only [buildEntriesLoop, hs, hk] at h
        simp only [List.filterMap_cons, entryToZip, hs, hk]
        exact ih m l m' l' h

theorem listKeys_entryToZip (zipPath : Str) :
    ∀ es : List Entry,
    listKeys (es.filterMap (entryToZip zipPath)) = fileKeysOf es zipPath := by
  intro es
  induction es with
  | nil => rfl
  | cons e rest ih =>
    rcases hs : stripZipPathPre e.name zipPath with _ | s
    · simp only [fileKeysOf, List.filterMap_cons, entryToZip, hs]
      rcases e.kind <;> simpa [fileKeysOf] using ih
    · rcases hk : e.kind
      · simp only [listKeys, fileKeysOf, List.filterMap_cons, entryToZip, hs, hk,
          keyOf_key]
        simpa [listKeys, fileKeysOf] using ih
      · simp only [listKeys, fileKeysOf, List.filterMap_cons, entryToZip, hs, hk,
          keyOf_pfx]
        simpa [listKeys, fileKeysOf] using ih
      · simp only [listKeys, fileKeysOf, List.filterMap_cons, entryToZip, hs, hk]
        simpa [listKeys, fileKeysOf] using ih

theorem pairwise_listKeys_of_pairwise (l : List ZipEntry)
    (h : l.Pairwise entLe) :
    (listKeys l).Pairwise (fun x y => strLe x y = true) := by
  unfold listKeys
  refine List.Pairwise.filterMap keyOf ?_ h
  intro a a' hr b hb b' hb'
  cases a with
  | key k =>
    cases a' with
    | key k' =>
      simp only [keyOf_key, Option.mem_def, Option.some.injEq] at hb hb'
      subst hb; subst hb'
      exact hr
    | pfx q => simp [keyOf_pfx] at hb'
  | pfx q => simp [keyOf_pfx] at hb

/-- C7: for every successfully constructed adapter, `list()` is
lexicographically sorted and is exactly (as a multiset) the store keys
derived from the parsed archive's `File` entries after root-prefix
stripping — directory entries and symlink entries contribute nothing, the
latter being dropped from the index entirely at construction. -/
theorem listKeys_after_construction (blob : List Nat) (size : Nat)
    (ptrace : List ParseRound) (zipPath : Str) (es : List Entry)
    (a : ZipStorageAdapter)
    (hp : (parseRun size ptrace []).2 = .ok (some es))
    (h : newWithPath blob (some size) ptrace zipPath = .ok a) :
    (listKeys a.sorted_entries).Pairwise (fun x y => strLe x y = true) ∧
    (listKeys a.sorted_entries).Perm (fileKeysOf es zipPath) := by
  rw [newWithPath, hp] at h
  rcases hb : buildEntriesLoop zipPath es [] [] with err | ⟨m, l⟩
  · simp only [hb] at h
    exact Except.noConfusion h
  · simp only [hb] at h
    have ha : a = ⟨size, blob, m, List.insertionSort entLe l⟩ := by
      injection h with h'
      exact h'.symm
    subst ha
    constructor
    · exact pairwise_listKeys_of_pairwise _
        (List.sorted_insertionSort entLe l)
    · have hperm : (List.insertionSort entLe l).Perm l :=
        List.perm_insertionSort entLe l
      have h1 : (listKeys (List.insertionSort entLe l)).Perm (listKeys l) :=
        List.Perm.filterMap keyOf hperm
      have h2 : l = [] ++ es.filterMap (entryToZip zipPath) :=
        buildEntriesLoop_list zipPath es [] [] m l hb
      rw [List.nil_append] at h2
      rw [show listKeys (List.insertionSort entLe l) = listKeys
        (⟨size, blob, m, List.insertionSort entLe l⟩ : ZipStorageAdapter).sorted_entries
        from rfl] at h1
      calc (listKeys (⟨size, blob, m,
              List.insertionSort entLe l⟩ : ZipStorageAdapter).sorted_entries).Perm
            (listKeys l) := h1
        _ = fileKeysOf es zipPath := by rw [h2, listKeys_entryToZip]

/-- Witness for C7: a three-file archive (one deep file, no directory
entries) plus a symlink entry that is dropped at construction. -/
theorem listKeys_after_construction_witness :
    (listKeys
        (⟨250, [],
          [("b/zarr.json".toList, ⟨"b/zarr.json".toList, .file, .store, 150, 0, 0⟩),
           ("a/d/e/zarr.json".toList, ⟨"a/d/e/zarr.json".toList, .file, .store, 50, 0, 0⟩),
           ("a/b/zarr.json".toList, ⟨"a/b/zarr.json".toList, .file, .store, 0, 4, 4⟩)],
          [ZipEntry.key "a/b/zarr.json".toList, ZipEntry.key "a/d/e/zarr.json".toList,
           ZipEntry.key "b/zarr.json".toList]⟩ : ZipStorageAdapter).sorted_entries).Pairwise
      (fun x y => strLe x y = true) ∧
    (listKeys
        (⟨250, [],
          [("b/zarr.json".toList, ⟨"b/zarr.json".toList, .file, .store, 150, 0, 0⟩),
           ("a/d/e/zarr.json".toList, ⟨"a/d/e/zarr.json".toList, .file, .store, 50, 0, 0⟩),
           ("a/b/zarr.json".toList, ⟨"a/b/zarr.json".toList, .file, .store, 0, 4, 4⟩)],
          [ZipEntry.key "a/b/zarr.json".toList, ZipEntry.key "a/d/e/zarr.json".toList,
           ZipEntry.key "b/zarr.json".toList]⟩ : ZipStorageAdapter).sorted_entries).Perm
      (fileKeysOf
        [⟨"a/b/zarr.json".toList, .file, .store, 0, 4, 4⟩,
         ⟨"a/d/e/zarr.json".toList, .file, .store, 50, 0, 0⟩,
         ⟨"ln".toList, .symlink, .store, 90, 0, 0⟩,
         ⟨"b/zarr.json".toList, .file, .store, 150, 0, 0⟩] []) :=
  listKeys_after_construction [] 250
    [⟨some 0, 10, ParseOutcome.done
      [⟨"a/b/zarr.json".toList, .file, .store, 0, 4, 4⟩,
       ⟨"a/d/e/zarr.json".toList, .file, .store, 50, 0, 0⟩,
       ⟨"ln".toList, .symlink, .store, 90, 0, 0⟩,
       ⟨"b/zarr.json".toList, .file, .store, 150, 0, 0⟩]⟩]
    []
    [⟨"a/b/zarr.json".toList, .file, .store, 0, 4, 4⟩,
     ⟨"a/d/e/zarr.json".toList, .file, .store, 50, 0, 0⟩,
     ⟨"ln".toList, .symlink, .store, 90, 0, 0⟩,
     ⟨"b/zarr.json".toList, .file, .store, 150, 0, 0⟩]
    (⟨250, [],
      [("b/zarr.json".toList, ⟨"b/zarr.json".toList, .file, .store, 150, 0, 0⟩),
       ("a/d/e/zarr.json".toList, ⟨"a/d/e/zarr.json".toList, .file, .store, 50, 0, 0⟩),
       ("a/b/zarr.json".toList, ⟨"a/b/zarr.json".toList, .file, .store, 0, 4, 4⟩)],
      [ZipEntry.key "a/b/zarr.json".toList, ZipEntry.key "a/d/e/zarr.json".toList,
       ZipEntry.key "b/zarr.json".toList]⟩ : ZipStorageAdapter)
    (by decide) (by decide)

/-! ### `size_prefix` over the constructed index (C9) -/

/-- The (stripped key, entry) pairs contributed by the archive's `File`
entries, in archive order. -/
def fileAssoc (es : List Entry) (zipPath : Str) : List (Str × Entry) :=
  es.filterMap (fun e =>
    match e.kind with
    | .file => (stripZipPathPre e.name zipPath).map (fun s => (s, e))
    | _ => none)

/-- Spec-side sum of C9: the `compressed_size` fields of exactly the
archive's `File` entries whose stripped key starts with the prefix. -/
def filePfxSizes (es : List Entry) (zipPath p : Str) : Nat :=
  (es.filterMap (fun e =>
    match e.kind with
    | .file =>
      match stripZipPathPre e.name zipPath with
      | some s => if p.isPrefixOf s then some e.compressedSize else none
      | none => none
    | _ => none)).sum

theorem lookup_filter_ne (k k' : Str) (hne : k' ≠ k) :
    ∀ m : List (Str × Entry),
    List.lookup k' (m.filter (fun kv => kv.1 ≠ k)) = List.lookup k' m := by
  intro m
  induction m with
  | nil => rfl
  | cons kv rest ih =>
    rcases kv with ⟨k0, v0⟩
    rw [List.filter_cons]
    by_cases h0 : k0 = k
    · subst h0
      have h1 : (decide ((k0, v0).1 ≠ k0)) = false := by simp
      rw [h1]
      simp only [Bool.false_eq_true, if_false]
      rw [ih]
      have h2 : (k' == k0) = false := by simp [hne]
      simp [List.lookup, h2]
    · have h1 : (decide ((k0, v0).1 ≠ k)) = true := by simp [h0]
      rw [h1]
      simp only [if_true]
      cases hb : k' == k0
      · simp only [List.lookup, hb]
        exact ih
      · simp only [List.lookup, hb]

theorem lookup_hmInsert (m : List (Str × Entry)) (k : Str) (v : Entry) (k' : Str) :
    List.lookup k' (hmInsert m k v) =
      if k' = k then some v else List.lookup k' m := by
  unfold hmInsert
  by_cases h : k' = k
  · subst h
    simp [List.lookup]
  · have hb : (k' == k) = false := by simp [h]
    simp only [List.lookup, hb, if_neg h]
    exact lookup_filter_ne k k' h m

theorem lookup_of_mem_nodup :
    ∀ (ps : List (Str × Entry)), (ps.map Prod.fst).Nodup →
    ∀ s e, (s, e) ∈ ps → List.lookup s ps = some e := by
  intro ps
  induction ps with
  | nil => intro _ s e h; simp at h
  | cons kv rest ih =>
    intro hnd s e hmem
    rcases kv with ⟨k0, v0⟩
    rw [List.map_cons, List.nodup_cons] at hnd
    obtain ⟨hk0, hnd'⟩ := hnd
    rcases List.mem_cons.mp hmem with h | h
    · injection h with h1 h2
      subst h1; subst h2
      simp [List.lookup]
    · have hne : s ≠ k0 := by
        intro he
        subst he
        exact hk0 (List.mem_map.mpr ⟨(s, e), h, rfl⟩)
      have hb : (s == k0) = false := by simp [hne]
      simp only [List.lookup, hb]
      exact ih hnd' s e h

theorem fileAssoc_nil (zipPath : Str) : fileAssoc [] zipPath = [] := rfl

theorem fileAssoc_cons_file (zipPath : Str) (e : Entry) (rest : List Entry)
    (s : Str) (hk : e.kind = .file) (hs : stripZipPathPre e.name zipPath = some s) :
    fileAssoc (e :: rest) zipPath = (s, e) :: fileAssoc rest zipPath := by
  simp [fileAssoc, List.filterMap_cons, hk, hs]

theorem fileAssoc_cons_file_none (zipPath : Str) (e : Entry) (rest : List Entry)
    (hk : e.kind = .file) (hs : stripZipPathPre e.name zipPath = none) :
    fileAssoc (e :: rest) zipPath = fileAssoc rest zipPath := by
  simp [fileAssoc, List.filterMap_cons, hk, hs]

theorem fileAssoc_cons_dir (zipPath : Str) (e : Entry) (rest : List Entry)
    (hk : e.kind = .directory) :
    fileAssoc (e :: rest) zipPath = fileAssoc rest zipPath := by
  simp [fileAssoc, List.filterMap_cons, hk]

theorem fileAssoc_cons_sym (zipPath : Str) (e : Entry) (rest : List Entry)
    (hk : e.kind = .symlink) :
    fileAssoc (e :: rest) zipPath = fileAssoc rest zipPath := by
  simp [fileAssoc, List.filterMap_cons, hk]

theorem buildEntriesLoop_lookup (zipPath : Str) :
    ∀ (es : List Entry) (m : List (Str × Entry)) (l : List ZipEntry)
      (m' : List (Str × Entry)) (l' : List ZipEntry),
    buildEntriesLoop zipPath es m l = .ok (m', l') →
    ((fileAssoc es zipPath).map Prod.fst).Nodup →
    ∀ k, List.lookup k m' = (List.lookup k (fileAssoc es zipPath)).or (List.lookup k m) := by
  intro es
  induction es with
  | nil =>
    intro m l m' l' h _ k
    simp only [buildEntriesLoop, Except.ok.injEq, Prod.mk.injEq] at h
    simp [fileAssoc_nil, ← h.1]
  | cons e rest ih =>
    intro m l m' l' h hnd k
    rcases hs : stripZipPathPre e.name zipPath with _ | s
    · rcases hk : e.kind
      · simp only [buildEntriesLoop, hs, hk] at h
        rw [fileAssoc_cons_file_none zipPath e rest hk hs] at hnd ⊢
        exact ih m l m' l' h hnd k
      · simp only [buildEntriesLoop, hs, hk] at h
        rw [fileAssoc_cons_dir zipPath e rest hk] at hnd ⊢
        exact ih m l m' l' h hnd k
      · simp only [buildEntriesLoop, hs, hk] at h
        rw [fileAssoc_cons_sym zipPath e rest hk] at hnd ⊢
        exact ih m l m' l' h hnd k
    · rcases hk : e.kind
      · simp only [buildEntriesLoop, hs, hk] at h
        by_cases hv : validKey s
        · rw [if_pos hv] at h
          rw [fileAssoc_cons_file zipPath e rest s hk hs] at hnd ⊢
          rw [List.map_cons, List.nodup_cons] at hnd
          obtain ⟨hs0, hnd'⟩ := hnd
          have hstep := ih _ _ _ _ h hnd' k
          rw [hstep, lookup_hmInsert]
          by_cases hks : k = s
          · subst hks
            have hnone : List.lookup k (fileAssoc rest zipPath) = none := by
              rcases hl : List.lookup k (fileAssoc rest zipPath) with _ | v
              · rfl
              · exfalso
                obtain ⟨l₁, l₂, hsplit, -⟩ := List.lookup_eq_some_iff.mp hl
                refine hs0 (List.mem_map.mpr ⟨(k, v), ?_, rfl⟩)
                rw [hsplit]
                exact List.mem_append.mpr (Or.inr (List.mem_cons_self _ _))
            have hb : (k == k) = true := by simp
            simp [List.lookup, hnone, hb]
          · have hb : (k == s) = false := by simp [hks]
            simp only [List.lookup, hb, if_neg hks]
        · rw [if_neg hv] at h
          exact absurd h (by simp)
      · simp only [buildEntriesLoop, hs, hk] at h
        by_cases hv : validPfx s
        · rw [if_pos hv] at h
          rw [fileAssoc_cons_dir zipPath e rest hk] at hnd ⊢
          exact ih _ _ _ _ h hnd k
        · rw [if_neg hv] at h
          exact absurd h (by simp)
      · simp only [buildEntriesLoop, hs, hk] at h
        rw [fileAssoc_cons_sym zipPath e rest hk] at hnd ⊢
        exact ih m l m' l' h hnd k

theorem sum_filterMap_lookup (zipPath p : Str) (M : List (Str × Entry)) :
    ∀ es : List Entry,
    (∀ e s, e ∈ es → e.kind = .file → stripZipPathPre e.name zipPath = some s →
      List.lookup s M = some e) →
    ((((es.filterMap (entryToZip zipPath)).filter
        (fun z => p.isPrefixOf z.asStr)).filterMap
      (fun z => match z with | .key k => List.lookup k M | .pfx _ => none)).map
        (fun en => en.compressedSize)).sum = filePfxSizes es zipPath p := by
  intro es
  induction es with
  | nil => intro _; rfl
  | cons e rest ih =>
    intro hM
    have hMr : ∀ e s, e ∈ rest → e.kind = .file →
        stripZipPathPre e.name zipPath = some s → List.lookup s M = some e :=
      fun e s he => hM e s (List.mem_cons_of_mem _ he)
    have ihr := ih hMr
    rcases hs : stripZipPathPre e.name zipPath with _ | s
    · rcases hk : e.kind
      · simp only [List.filterMap_cons, entryToZip, hs, hk, filePfxSizes] at ihr ⊢
        exact ihr
      · simp only [List.filterMap_cons, entryToZip, hs, hk, filePfxSizes] at ihr ⊢
        exact ihr
      · simp only [List.filterMap_cons, entryToZip, hs, hk, filePfxSizes] at ihr ⊢
        exact ihr
    · rcases hk : e.kind
      · have hlook : List.lookup s M = some e :=
          hM e s (List.mem_cons_self _ _) hk hs
        by_cases hpf : p.isPrefixOf s = true
        · simp only [List.filterMap_cons, entryToZip, hs, hk, List.filter_cons,
            asStr_key, hpf, if_pos, List.filterMap_cons, hlook, List.map_cons,
            List.sum_cons]
          rw [ihr]
          have hp2 : p <+: s := List.isPrefixOf_iff_prefix.mp hpf
          simp [filePfxSizes, List.filterMap_cons, hk, hs, hp2]
        · have hpf' : p.isPrefixOf s = false := Bool.eq_false_iff.mpr hpf
          simp only [List.filterMap_cons, entryToZip, hs, hk, List.filter_cons,
            asStr_key, hpf', Bool.false_eq_true, if_false]
          rw [ihr]
          have hp2 : ¬ (p <+: s) := fun hh =>
            hpf (List.isPrefixOf_iff_prefix.mpr hh)
          simp [filePfxSizes, List.filterMap_cons, hk, hs, hp2]
      · by_cases hpf : p.isPrefixOf s = true
        · simp only [List.filterMap_cons, entryToZip, hs, hk, List.filter_cons,
            asStr_pfx, hpf, if_pos, List.filterMap_cons, filePfxSizes] at ihr ⊢
          exact ihr
        · have hpf' : p.isPrefixOf s = false := Bool.eq_false_iff.mpr hpf
          simp only [List.filterMap_cons, entryToZip, hs, hk, List.filter_cons,
            asStr_pfx, hpf', Bool.false_eq_true, if_false, filePfxSizes] at ihr ⊢
          exact ihr
      · simp only [List.filterMap_cons, entryToZip, hs, hk, filePfxSizes] at ihr ⊢
        exact ihr

/-- C9: for every successfully constructed adapter with no duplicate
stripped file keys, `size_prefix(P)` equals the sum of the
`compressed_size` fields (not the uncompressed sizes) over exactly the
archive's `File` entries whose stripped key starts with P — the entries of
the contiguous sorted-index slice located by the partition-point probes;
directory entries contribute nothing. -/
theorem sizePfx_after_construction (blob : List Nat) (size : Nat)
    (ptrace : List ParseRound) (zipPath : Str) (es : List Entry)
    (a : ZipStorageAdapter) (p : Str)
    (hp : (parseRun size ptrace []).2 = .ok (some es))
    (h : newWithPath blob (some size) ptrace zipPath = .ok a)
    (hnd : ((fileAssoc es zipPath).map Prod.fst).Nodup) :
    sizePfxOp a.sorted_entries a.entries p = filePfxSizes es zipPath p := by
  rw [newWithPath, hp] at h
  rcases hb : buildEntriesLoop zipPath es [] [] with err | ⟨m, l⟩
  · simp only [hb] at h
    exact Except.noConfusion h
  · simp only [hb] at h
    have ha : a = ⟨size, blob, m, List.insertionSort entLe l⟩ := by
      injection h with h'
      exact h'.symm
    subst ha
    have hl : l = es.filterMap (entryToZip zipPath) := by
      have := buildEntriesLoop_list zipPath es [] [] m l hb
      simpa using this
    have hlookup : ∀ k, List.lookup k m = List.lookup k (fileAssoc es zipPath) := by
      intro k
      have := buildEntriesLoop_lookup zipPath es [] [] m l hb hnd k
      simpa using this
    show sizePfxOp (List.insertionSort entLe l) m p = filePfxSizes es zipPath p
    unfold sizePfxOp
    rw [entriesWithPfx_eq_filter _ p (List.sorted_insertionSort entLe l)]
    have hperm : ((List.insertionSort entLe l).filter
        (fun z => p.isPrefixOf z.asStr)).Perm (l.filter (fun z => p.isPrefixOf z.asStr)) :=
      List.Perm.filter _ (List.perm_insertionSort entLe l)
    have hperm2 := List.Perm.sum_eq (List.Perm.map (fun en => en.compressedSize)
      (List.Perm.filterMap (fun z => match z with
        | ZipEntry.key k => List.lookup k m
        | ZipEntry.pfx _ => none) hperm))
    rw [hperm2, hl]
    have hM : ∀ e s, e ∈ es → e.kind = .file →
        stripZipPathPre e.name zipPath = some s → List.lookup s m = some e := by
      intro e s he hk hs
      rw [hlookup s]
      apply lookup_of_mem_nodup _ hnd
      unfold fileAssoc
      exact List.mem_filterMap.mpr ⟨e, he, by rw [hk, hs]; rfl⟩
    have := sum_filterMap_lookup zipPath p m es hM
    exact this

/-- Witness for C9: three stored files with compressed sizes 5, 7 and 11;
under the prefix only the first two count, so `size_prefix` is their
compressed-size sum. -/
theorem sizePfx_after_construction_witness :
    sizePfxOp
        (⟨100, [],
          [("b/z".toList, ⟨"b/z".toList, .file, .store, 80, 11, 11⟩),
           ("a/y".toList, ⟨"a/y".toList, .file, .store, 40, 7, 7⟩),
           ("a/x".toList, ⟨"a/x".toList, .file, .store, 0, 5, 5⟩)],
          [ZipEntry.key "a/x".toList, ZipEntry.key "a/y".toList,
           ZipEntry.key "b/z".toList]⟩ : ZipStorageAdapter).sorted_entries
        (⟨100, [],
          [("b/z".toList, ⟨"b/z".toList, .file, .store, 80, 11, 11⟩),
           ("a/y".toList, ⟨"a/y".toList, .file, .store, 40, 7, 7⟩),
           ("a/x".toList, ⟨"a/x".toList, .file, .store, 0, 5, 5⟩)],
          [ZipEntry.key "a/x".toList, ZipEntry.key "a/y".toList,
           ZipEntry.key "b/z".toList]⟩ : ZipStorageAdapter).entries "a/".toList =
      filePfxSizes
        [⟨"a/x".toList, .file, .store, 0, 5, 5⟩,
         ⟨"a/y".toList, .file, .store, 40, 7, 7⟩,
         ⟨"b/z".toList, .file, .store, 80, 11, 11⟩] [] "a/".toList :=
  sizePfx_after_construction [] 100
    [⟨some 0, 10, ParseOutcome.done
      [⟨"a/x".toList, .file, .store, 0, 5, 5⟩,
       ⟨"a/y".toList, .file, .store, 40, 7, 7⟩,
       ⟨"b/z".toList, .file, .store, 80, 11, 11⟩]⟩]
    []
    [⟨"a/x".toList, .file, .store, 0, 5, 5⟩,
     ⟨"a/y".toList, .file, .store, 40, 7, 7⟩,
     ⟨"b/z".toList, .file, .store, 80, 11, 11⟩]
    (⟨100, [],
      [("b/z".toList, ⟨"b/z".toList, .file, .store, 80, 11, 11⟩),
       ("a/y".toList, ⟨"a/y".toList, .file, .store, 40, 7, 7⟩),
       ("a/x".toList, ⟨"a/x".toList, .file, .store, 0, 5, 5⟩)],
      [ZipEntry.key "a/x".toList, ZipEntry.key "a/y".toList,
       ZipEntry.key "b/z".toList]⟩ : ZipStorageAdapter)
    "a/".toList (by decide) (by decide) (by decide)

/-! ### Path-shape lemmas for `list_dir` (C5) -/

theorem noDS_cons_cons (a b : Char) (r : Str) :
    noDS (a :: b :: r) = ((!(a == '/' && b == '/')) && noDS (b :: r)) := rfl

theorem noDS_of_not_mem : ∀ u : Str, '/' ∉ u → noDS u = true := by
  intro u
  induction u with
  | nil => intro _; rfl
  | cons a r ih =>
    intro h
    cases r with
    | nil => rfl
    | cons b r' =>
      have ha : a ≠ '/' := fun he => h (he ▸ List.mem_cons_self a _)
      have hr : '/' ∉ b :: r' := fun hm => h (List.mem_cons_of_mem a hm)
      rw [noDS_cons_cons]
      have : (a == '/') = false := by simp [ha]
      simp [this, ih hr]

theorem noDS_double_slash : ∀ (x y : Str), noDS (x ++ '/' :: '/' :: y) = false := by
  intro x
  induction x with
  | nil =>
    intro y
    rw [List.nil_append, noDS_cons_cons]
    simp
  | cons c x' ih =>
    intro y
    cases hx : x' ++ '/' :: '/' :: y with
    | nil => exact absurd hx (by simp)
    | cons d t =>
      have : (c :: x') ++ '/' :: '/' :: y = c :: d :: t := by rw [List.cons_append, hx]
      rw [this, noDS_cons_cons, ← hx, ih y]
      simp

theorem noDS_append_mpr : ∀ (x y : Str), noDS x = true → noDS y = true →
    (∀ a b, x.getLast? = some a → y.head? = some b → ¬(a = '/' ∧ b = '/')) →
    noDS (x ++ y) = true := by
  intro x
  induction x with
  | nil => intro y _ hy _; simpa using hy
  | cons c x' ih =>
    intro y hx hy hb
    cases x' with
    | nil =>
      cases y with
      | nil => rfl
      | cons d y' =>
        rw [List.cons_append, List.nil_append, noDS_cons_cons]
        have hcd : ¬(c = '/' ∧ d = '/') := hb c d rfl rfl
        have : (c == '/' && d == '/') = false := by
          rcases Decidable.em (c = '/') with h1 | h1
          · rcases Decidable.em (d = '/') with h2 | h2
            · exact absurd ⟨h1, h2⟩ hcd
            · simp [h2]
          · simp [h1]
        rw [this]
        simpa using hy
    | cons c2 x'' =>
      rw [noDS_cons_cons] at hx
      have hx' : noDS (c2 :: x'') = true := by
        cases hh : noDS (c2 :: x'')
        · rw [hh] at hx; simp at hx
        · rfl
      have hcc : (!(c == '/' && c2 == '/')) = true := by
        cases hh : (!(c == '/' && c2 == '/'))
        · rw [hh] at hx; simp at hx
        · rfl
      have hrec : noDS ((c2 :: x'') ++ y) = true := by
        refine ih y hx' hy ?_
        intro a b hla hhb
        refine hb a b ?_ hhb
        rw [List.getLast?_cons_cons]
        exact hla
      rw [List.cons_append, List.cons_append, noDS_cons_cons, hcc]
      simpa using hrec

theorem firstSlash_eq_none : ∀ u : Str, firstSlash u = none ↔ '/' ∉ u := by
  intro u
  induction u with
  | nil => simp [firstSlash]
  | cons c r ih =>
    by_cases hc : c = '/'
    · subst hc
      simp [firstSlash]
    · simp only [firstSlash, if_neg hc]
      constructor
      · intro h hm
        rcases List.mem_cons.mp hm with h1 | h1
        · exact hc h1.symm
        · have : firstSlash r = none := by
            cases hf : firstSlash r
            · rfl
            · rw [hf] at h; simp at h
          exact (ih.mp this) h1
      · intro hm
        have : '/' ∉ r := fun h1 => hm (List.mem_cons_of_mem c h1)
        rw [ih.mpr this]
        rfl

theorem firstSlash_split : ∀ (u : Str) (i : Nat), firstSlash u = some i →
    ∃ v w, u = v ++ '/' :: w ∧ v.length = i ∧ '/' ∉ v := by
  intro u
  induction u with
  | nil => intro i h; simp [firstSlash] at h
  | cons c r ih =>
    intro i h
    by_cases hc : c = '/'
    · subst hc
      simp only [firstSlash, if_pos rfl] at h
      injection h with h'
      exact ⟨[], r, by simp, by simp [← h'], by simp⟩
    · simp only [firstSlash, if_neg hc] at h
      rcases hf : firstSlash r with _ | i'
      · rw [hf] at h; simp at h
      · rw [hf] at h
        simp only [Option.map_some'] at h
        injection h with h'
        obtain ⟨v, w, hvw, hlen, hnm⟩ := ih i' hf
        refine ⟨c :: v, w, by rw [hvw]; rfl, by simp [hlen, ← h'], ?_⟩
        intro hm
        rcases List.mem_cons.mp hm with h1 | h1
        · exact hc h1.symm
        · exact hnm h1

theorem take_append_one : ∀ (v : Str) (x : Char) (w : Str),
    (v ++ x :: w).take (v.length + 1) = v ++ [x] := by
  intro v
  induction v with
  | nil => intro x w; simp
  | cons c v' ih =>
    intro x w
    simp only [List.cons_append, List.length_cons, List.take_cons]
    rw [show v'.length + 1 + 1 = (v'.length + 1) + 1 from rfl]
    simp [ih]

theorem dropWhile_append_of_all (pred : Char → Bool) :
    ∀ (x y : Str), (∀ c ∈ x, pred c = true) →
    List.dropWhile pred (x ++ y) = List.dropWhile pred y := by
  intro x
  induction x with
  | nil => intro y _; rfl
  | cons c x' ih =>
    intro y hall
    rw [List.cons_append, List.dropWhile_cons,
      if_pos (hall c (List.mem_cons_self c x'))]
    exact ih y (fun d hd => hall d (List.mem_cons_of_mem c hd))

theorem parentOf_append_seg (p seg : Str) (hp : validPfx p) (hseg : seg ≠ [])
    (hns : '/' ∉ seg) : parentOf (p ++ seg) = p := by
  unfold parentOf
  rw [List.reverse_append]
  rw [dropWhile_append_of_all _ seg.reverse p.reverse ?hall]
  case hall =>
    intro c hc
    have : c ∈ seg := List.mem_reverse.mp hc
    have : c ≠ '/' := fun he => hns (he ▸ this)
    simp [this]
  rcases hp with h | ⟨_, hlast, _⟩
  · subst h
    rfl
  · obtain ⟨p0, hp0⟩ := List.getLast?_eq_some_iff.mp hlast
    subst hp0
    rw [List.reverse_append]
    simp only [List.reverse_cons, List.reverse_nil, List.nil_append,
      List.cons_append, List.dropWhile_cons]
    simp

theorem eq_append_drop_of_isPrefixOf {p k : Str} (h : p.isPrefixOf k = true) :
    k = p ++ k.drop p.length := by
  obtain ⟨t, ht⟩ := List.isPrefixOf_iff_prefix.mp h
  rw [← ht, List.drop_left]

theorem head_drop_ne_slash {p k : Str} (hp : validPfx p) (hk : validKey k)
    (hpre : p.isPrefixOf k = true) :
    ∀ t, k.drop p.length = '/' :: t → False := by
  intro t hdrop
  have hdec := eq_append_drop_of_isPrefixOf hpre
  rw [hdrop] at hdec
  rcases hp with h | ⟨_, hlast, _⟩
  · subst h
    rw [List.nil_append] at hdec
    exact hk.2.1 (by rw [hdec]; rfl)
  · obtain ⟨p0, hp0⟩ := List.getLast?_eq_some_iff.mp hlast
    subst hp0
    have : noDS k = false := by
      rw [hdec, List.append_assoc, List.singleton_append]
      exact noDS_double_slash p0 t
    rw [hk.2.2.2] at this
    exact Bool.noConfusion this

theorem drop_ne_nil_of_key {p k : Str} (hp : validPfx p) (hk : validKey k)
    (hpre : p.isPrefixOf k = true) : k.drop p.length ≠ [] := by
  intro hnil
  have hdec := eq_append_drop_of_isPrefixOf hpre
  rw [hnil, List.append_nil] at hdec
  rcases hp with h | ⟨_, hlast, _⟩
  · subst h
    exact hk.1 hdec
  · rw [hdec] at hk
    exact hk.2.2.1 hlast

theorem validPfx_child (p u : Str) (hp : validPfx p) (hu : u ≠ []) (hnu : '/' ∉ u) :
    validPfx (p ++ (u ++ ['/'])) := by
  have huh : u.head? ≠ some '/' := by
    cases u with
    | nil => exact absurd rfl hu
    | cons c u' =>
      intro hh
      injection hh with hh'
      exact hnu (hh' ▸ List.mem_cons_self c u')
  have hnoDSu : noDS (u ++ ['/']) = true := by
    refine noDS_append_mpr u ['/'] (noDS_of_not_mem u hnu) rfl ?_
    intro a b hla hhb
    injection hhb with hhb'
    intro ⟨ha, _⟩
    obtain ⟨u0, hu0⟩ := List.getLast?_eq_some_iff.mp hla
    exact hnu (by rw [hu0, ha]; exact List.mem_append.mpr (Or.inr (List.mem_cons_self _ _)))
  refine Or.inr ⟨?_, ?_, ?_⟩
  · rcases hp with h | ⟨hhead, _, _⟩
    · subst h
      rw [List.nil_append]
      cases u with
      | nil => exact absurd rfl hu
      | cons c u' =>
        intro hh
        injection hh with hh'
        exact hnu (hh' ▸ List.mem_cons_self c u')
    · rcases hpe : p with _ | ⟨c, p'⟩
      · rw [hpe] at hhead
        rw [List.nil_append]
        cases u with
        | nil => exact absurd rfl hu
        | cons d u' =>
          intro hh
          injection hh with hh'
          exact hnu (hh' ▸ List.mem_cons_self d u')
      · rw [hpe] at hhead
        rw [List.cons_append]
        exact hhead
  · rw [← List.append_assoc]
    exact List.getLast?_concat _
  · rcases hp with h | ⟨_, hplast, hpnoDS⟩
    · subst h
      rw [List.nil_append]
      exact hnoDSu
    · refine noDS_append_mpr p (u ++ ['/']) hpnoDS hnoDSu ?_
      intro a b hla hhb
      intro ⟨_, hb⟩
      cases u with
      | nil => exact absurd rfl hu
      | cons c u' =>
        rw [List.cons_append] at hhb
        injection hhb with hhb'
        have hc : c = '/' := by rw [hhb', hb]
        exact hnu (hc ▸ List.mem_cons_self c u')

theorem immediateChildPfx_some (p k : Str) (hp : validPfx p) (hk : validKey k)
    (hpre : p.isPrefixOf k = true) (i : Nat)
    (hfs : firstSlash (k.drop p.length) = some i) :
    ∃ u w, '/' ∉ u ∧ u ≠ [] ∧ k = p ++ (u ++ '/' :: w) ∧
      immediateChildPfx k p = some (p ++ (u ++ ['/'])) := by
  obtain ⟨u, w, hsplit, hlen, hnu⟩ := firstSlash_split (k.drop p.length) i hfs
  have hu : u ≠ [] := by
    intro hnil
    subst hnil
    rw [List.nil_append] at hsplit
    exact head_drop_ne_slash hp hk hpre w hsplit
  refine ⟨u, w, hnu, hu, ?_, ?_⟩
  · rw [eq_append_drop_of_isPrefixOf hpre, hsplit]
  · unfold immediateChildPfx
    rw [if_pos hpre]
    simp only [hfs]
    have htake : (k.drop p.length).take (i + 1) = u ++ ['/'] := by
      rw [hsplit, ← hlen]
      exact take_append_one u '/' w
    rw [htake]
    unfold tryFromPfx
    rw [if_pos (validPfx_child p u hp hu hnu)]

theorem firstSlash_of_deep (p k : Str) (hp : validPfx p) (hk : validKey k)
    (hpre : p.isPrefixOf k = true) (hdeep : parentOf k ≠ p) :
    ∃ i, firstSlash (k.drop p.length) = some i := by
  rcases hfs : firstSlash (k.drop p.length) with _ | i
  · exfalso
    have hnm : '/' ∉ k.drop p.length := (firstSlash_eq_none _).mp hfs
    have hne : k.drop p.length ≠ [] := drop_ne_nil_of_key hp hk hpre
    have := parentOf_append_seg p (k.drop p.length) hp hne hnm
    rw [← eq_append_drop_of_isPrefixOf hpre] at this
    exact hdeep this
  · exact ⟨i, rfl⟩

/-- Validity of an indexed entry: keys are well-formed store keys, prefixes
well-formed store prefixes (the construction loop only indexes validated
entries). -/
def entValid : ZipEntry → Prop
  | .key k => validKey k
  | .pfx q => validPfx q

instance : DecidablePred entValid := fun e =>
  match e with
  | .key k => inferInstanceAs (Decidable (validKey k))
  | .pfx q => inferInstanceAs (Decidable (validPfx q))

/-- The prefix the `list_dir` loop would collect for one entry, dedup
aside: a deeper key contributes its immediate child prefix, an explicit
prefix entry contributes itself when its remainder is one trailing
segment. -/
def pushVal (p : Str) : ZipEntry → Option Str
  | .key k =>
    if parentOf k = p then none else immediateChildPfx k p
  | .pfx q =>
    if p.isPrefixOf q then
      if q.drop p.length = [] then none
      else
        if ¬ (((q.drop p.length).reverse.dropWhile (fun c => c = '/')).reverse.contains '/')
        then some q
        else none
    else none

/-- One push of the `list_dir` prefix collection: append unless equal to
the last collected prefix. -/
def dedupPush (acc : List Str) (x : Str) : List Str :=
  if acc.getLast? = some x then acc else acc ++ [x]

/-- The `list_dir` prefix collection over a stream of candidates. -/
def dedupAppend (acc : List Str) : List Str → List Str
  | [] => acc
  | x :: xs => dedupAppend (dedupPush acc x) xs

theorem listDirLoop_characterization (p : Str) :
    ∀ (l : List ZipEntry) (keys pfxs : List Str),
    listDirLoop p l keys pfxs =
      (keys ++ l.filterMap (fun e => match e with
        | ZipEntry.key k => if parentOf k = p then some k else none
        | ZipEntry.pfx _ => none),
       dedupAppend pfxs (l.filterMap (pushVal p))) := by
  intro l
  induction l with
  | nil => intro keys pfxs; simp [listDirLoop, dedupAppend]
  | cons e rest ih =>
    intro keys pfxs
    cases e with
    | key k =>
      by_cases hpar : parentOf k = p
      · simp only [listDirLoop, if_pos hpar]
        rw [ih]
        simp only [List.filterMap_cons, pushVal, if_pos hpar]
        simp [hpar]
      · rcases hc : immediateChildPfx k p with _ | cp
        · simp only [listDirLoop, if_neg hpar, hc]
          rw [ih]
          simp only [List.filterMap_cons, pushVal, if_neg hpar, hc]
        · by_cases hlast : pfxs.getLast? = some cp
          · simp only [listDirLoop, if_neg hpar, hc, if_pos hlast]
            rw [ih]
            simp only [List.filterMap_cons, pushVal, if_neg hpar, hc]
            simp only [dedupAppend, dedupPush, if_pos hlast]
          · simp only [listDirLoop, if_neg hpar, hc, if_neg hlast]
            rw [ih]
            simp only [List.filterMap_cons, pushVal, if_neg hpar, hc]
            simp only [dedupAppend, dedupPush, if_neg hlast]
    | pfx q =>
      by_cases hpre : p.isPrefixOf q = true
      · by_cases hsuf : q.drop p.length = []
        · simp only [listDirLoop, if_pos hpre, if_pos hsuf]
          rw [ih]
          simp only [List.filterMap_cons, pushVal, if_pos hpre, if_pos hsuf]
        · simp only [listDirLoop, if_pos hpre, if_neg hsuf]
          by_cases hcont :
              ((((q.drop p.length).reverse.dropWhile (fun c => c = '/')).reverse).contains
                '/') = true
          · have hcond : ¬ (¬ ((((q.drop p.length).reverse.dropWhile
                (fun c => c = '/')).reverse).contains '/') = true ∧
                pfxs.getLast? ≠ some q) := by
              intro hh
              exact hh.1 hcont
            rw [if_neg hcond, ih]
            simp only [List.filterMap_cons, pushVal, if_pos hpre, if_neg hsuf,
              if_neg (show ¬ ¬ ((((q.drop p.length).reverse.dropWhile
                (fun c => c = '/')).reverse).contains '/') = true from fun hh => hh hcont)]
          · by_cases hlast : pfxs.getLast? = some q
            · have hcond : ¬ (¬ ((((q.drop p.length).reverse.dropWhile
                  (fun c => c = '/')).reverse).contains '/') = true ∧
                  pfxs.getLast? ≠ some q) := by
                intro hh
                exact hh.2 hlast
              rw [if_neg hcond, ih]
              simp only [List.filterMap_cons, pushVal, if_pos hpre, if_neg hsuf,
                if_pos hcont]
              simp only [dedupAppend, dedupPush, if_pos hlast]
            · have hcond : (¬ ((((q.drop p.length).reverse.dropWhile
                  (fun c => c = '/')).reverse).contains '/') = true ∧
                  pfxs.getLast? ≠ some q) := ⟨hcont, hlast⟩
              rw [if_pos hcond, ih]
              simp only [List.filterMap_cons, pushVal, if_pos hpre, if_neg hsuf,
                if_pos hcont]
              simp only [dedupAppend, dedupPush, if_neg hlast]
      · simp only [listDirLoop, if_neg hpre]
        rw [ih]
        simp only [List.filterMap_cons, pushVal, if_neg hpre]

theorem dedupPush_sub (acc : List Str) (x : Str) : acc ⊆ dedupPush acc x := by
  unfold dedupPush
  by_cases h : acc.getLast? = some x
  · rw [if_pos h]
    exact fun _ hh => hh
  · rw [if_neg h]
    exact List.subset_append_left _ _


theorem dedupAppend_acc_sub : ∀ (xs acc : List Str), acc ⊆ dedupAppend acc xs := by
  intro xs
  induction xs with
  | nil => intro acc; exact fun _ h => h
  | cons x xs' ih =>
    intro acc
    unfold dedupAppend
    exact fun a ha => ih (dedupPush acc x) (dedupPush_sub acc x ha)

theorem dedupAppend_mem : ∀ (xs acc : List Str) (x : Str), x ∈ xs →
    x ∈ dedupAppend acc xs := by
  intro xs
  induction xs with
  | nil => intro acc x h; simp at h
  | cons y xs' ih =>
    intro acc x h
    rcases List.mem_cons.mp h with h1 | h1
    · subst h1
      unfold dedupAppend
      refine dedupAppend_acc_sub xs' (dedupPush acc x) ?_
      unfold dedupPush
      by_cases hl : acc.getLast? = some x
      · rw [if_pos hl]
        obtain ⟨ys, hys⟩ := List.getLast?_eq_some_iff.mp hl
        rw [hys]
        exact List.mem_append.mpr (Or.inr (List.mem_cons_self _ _))
      · rw [if_neg hl]
        exact List.mem_append.mpr (Or.inr (List.mem_cons_self _ _))
    · unfold dedupAppend
      exact ih (dedupPush acc y) x h1

theorem dedupAppend_sub : ∀ (xs acc : List Str) (y : Str),
    y ∈ dedupAppend acc xs → y ∈ acc ∨ y ∈ xs := by
  intro xs
  induction xs with
  | nil => intro acc y h; exact Or.inl h
  | cons x xs' ih =>
    intro acc y h
    unfold dedupAppend at h
    rcases ih (dedupPush acc x) y h with h1 | h1
    · unfold dedupPush at h1
      by_cases hl : acc.getLast? = some x
      · rw [if_pos hl] at h1
        exact Or.inl h1
      · rw [if_neg hl] at h1
        rcases List.mem_append.mp h1 with h2 | h2
        · exact Or.inl h2
        · rcases List.mem_singleton.mp h2 with rfl
          exact Or.inr (List.mem_cons_self _ _)
    · exact Or.inr (List.mem_cons_of_mem x h1)

theorem pairwise_strLt_last : ∀ (acc : List Str),
    acc.Pairwise (fun a b => strLt a b = true) → ∀ la, acc.getLast? = some la →
    ∀ a ∈ acc, a = la ∨ strLt a la = true := by
  intro acc
  induction acc with
  | nil => intro _ la h; simp at h
  | cons c rest ih =>
    intro hpw la hla a ha
    rw [List.pairwise_cons] at hpw
    obtain ⟨hc, hrest⟩ := hpw
    cases rest with
    | nil =>
      rcases List.mem_singleton.mp ha with rfl
      obtain ⟨ys, hys⟩ := List.getLast?_eq_some_iff.mp hla
      cases ys with
      | nil =>
        rw [List.nil_append] at hys
        injection hys with h1
        exact Or.inl h1
      | cons z zs =>
        exfalso
        have := congrArg List.length hys
        simp at this
    | cons d rest' =>
      rw [List.getLast?_cons_cons] at hla
      rcases List.mem_cons.mp ha with h1 | h1
      · subst h1
        right
        have hla_mem : la ∈ d :: rest' := by
          obtain ⟨ys, hys⟩ := List.getLast?_eq_some_iff.mp hla
          rw [hys]
          exact List.mem_append.mpr (Or.inr (List.mem_cons_self _ _))
        exact hc la hla_mem
      · exact ih hrest la hla a h1

theorem dedupAppend_pairwise : ∀ (xs acc : List Str),
    acc.Pairwise (fun a b => strLt a b = true) →
    xs.Pairwise (fun a b => strLe a b = true) →
    (∀ x ∈ xs, ∀ la, acc.getLast? = some la → strLe la x = true) →
    (dedupAppend acc xs).Pairwise (fun a b => strLt a b = true) := by
  intro xs
  induction xs with
  | nil => intro acc hacc _ _; exact hacc
  | cons x xs' ih =>
    intro acc hacc hxs hinv
    rw [List.pairwise_cons] at hxs
    obtain ⟨hx, hxs'⟩ := hxs
    unfold dedupAppend
    by_cases hl : acc.getLast? = some x
    · rw [show dedupPush acc x = acc from by unfold dedupPush; rw [if_pos hl]]
      refine ih acc hacc hxs' ?_
      intro y hy la hla
      rw [hla] at hl
      injection hl with h'
      rw [h']
      exact hx y hy
    · rw [show dedupPush acc x = acc ++ [x] from by unfold dedupPush; rw [if_neg hl]]
      refine ih (acc ++ [x]) ?_ hxs' ?_
      · rw [List.pairwise_append]
        refine ⟨hacc, List.pairwise_singleton _ _, ?_⟩
        intro a ha b hb
        rcases List.mem_singleton.mp hb with rfl
        rcases hacc_last : acc.getLast? with _ | la
        · rw [List.getLast?_eq_none_iff] at hacc_last
          subst hacc_last
          simp at ha
        · have hlax : strLe la b = true := hinv b (List.mem_cons_self _ _) la hacc_last
          have hlab : la ≠ b := fun he => hl (he ▸ hacc_last)
          have hlt_la_b : strLt la b = true := by
            rcases strLt_conn la b hlab with h | h
            · exact h
            · rw [strLe_iff_not_strLt, h] at hlax
              exact Bool.noConfusion hlax
          rcases pairwise_strLt_last acc hacc la hacc_last a ha with h1 | h1
          · rw [h1]; exact hlt_la_b
          · exact strLt_trans _ _ _ h1 hlt_la_b
      · intro y hy la hla
        rw [List.getLast?_concat] at hla
        injection hla with h'
        rw [← h']
        exact hx y hy

theorem trim_trailing (l : Str) :
    l = (l.reverse.dropWhile (fun c => c = '/')).reverse ++
      List.replicate (l.reverse.takeWhile (fun c => c = '/')).length '/' := by
  conv_lhs => rw [← List.reverse_reverse l,
    ← List.takeWhile_append_dropWhile (fun c => c = '/') l.reverse]
  rw [List.reverse_append]
  congr 1
  have : ∀ b ∈ l.reverse.takeWhile (fun c => c = '/'), b = '/' := by
    intro b hb
    have := List.mem_takeWhile_imp hb
    simpa using this
  rw [List.eq_replicate_of_mem this]
  simp [List.reverse_replicate]

theorem takeWhile_len_pos_of_last (l : Str) (h : l.getLast? = some '/') :
    0 < (l.reverse.takeWhile (fun c => c = '/')).length := by
  obtain ⟨ys, hys⟩ := List.getLast?_eq_some_iff.mp h
  subst hys
  rw [List.reverse_append]
  simp [List.takeWhile_cons]

theorem pfx_suffix_shape (p q0 : Str) (hq : validPfx q0) (hp : validPfx p)
    (hpre : p.isPrefixOf q0 = true) (hsuf : q0.drop p.length ≠ [])
    (hcont : (((q0.drop p.length).reverse.dropWhile
      (fun c => c = '/')).reverse.contains '/') = false) :
    ∃ seg, seg ≠ [] ∧ '/' ∉ seg ∧ q0 = p ++ (seg ++ ['/']) := by
  have hdec := eq_append_drop_of_isPrefixOf hpre
  set suf := q0.drop p.length with hsufdef
  set trimmed := (suf.reverse.dropWhile (fun c => c = '/')).reverse with htrdef
  have hnm : '/' ∉ trimmed := by
    intro hmem
    have : trimmed.contains '/' = true := List.elem_iff.mpr hmem
    rw [this] at hcont
    exact Bool.noConfusion hcont
  rcases hq with h | ⟨hqhead, hqlast, hqnoDS⟩
  · rw [h] at hdec
    exact absurd (List.append_eq_nil.mp hdec.symm).2 hsuf
  · have hsuflast : suf.getLast? = some '/' := by
      rw [hdec, List.getLast?_append] at hqlast
      rcases hget : suf.getLast? with _ | c
      · rw [List.getLast?_eq_none_iff] at hget
        exact absurd hget hsuf
      · rw [hget] at hqlast
        exact hqlast
    set m := (suf.reverse.takeWhile (fun c => c = '/')).length with hmdef
    have hm1 : 0 < m := takeWhile_len_pos_of_last suf hsuflast
    have hsplit : suf = trimmed ++ List.replicate m '/' := trim_trailing suf
    have hm2 : m < 2 := by
      by_contra hge
      push_neg at hge
      have : List.replicate m '/' = '/' :: '/' :: List.replicate (m - 2) '/' := by
        rcases m with _ | _ | m'
        · omega
        · omega
        · simp [List.replicate]
      rw [this] at hsplit
      have : noDS q0 = false := by
        rw [hdec, hsplit, ← List.append_assoc]
        exact noDS_double_slash (p ++ trimmed) (List.replicate (m - 2) '/')
      rw [hqnoDS] at this
      exact Bool.noConfusion this
    have hmeq : m = 1 := by omega
    rw [hmeq] at hsplit
    simp only [List.replicate] at hsplit
    have htr : trimmed ≠ [] := by
      intro hnil
      rw [hnil, List.nil_append] at hsplit
      rcases hp with hpn | ⟨_, hplast, _⟩
      · rw [hpn, List.nil_append] at hdec
        rw [hdec, hsplit] at hqhead
        exact hqhead rfl
      · obtain ⟨p0, hp0⟩ := List.getLast?_eq_some_iff.mp hplast
        have : noDS q0 = false := by
          rw [hdec, hsplit, hp0, List.append_assoc, List.singleton_append]
          exact noDS_double_slash p0 []
        rw [hqnoDS] at this
        exact Bool.noConfusion this
    exact ⟨trimmed, htr, hnm, by rw [hdec, hsplit]⟩

theorem pushVal_shape (p : Str) (hp : validPfx p) (e : ZipEntry)
    (hv : entValid e) (q : Str) (h : pushVal p e = some q) :
    ∃ seg rest, seg ≠ [] ∧ '/' ∉ seg ∧ q = p ++ (seg ++ ['/']) ∧
      e.asStr = p ++ (seg ++ '/' :: rest) := by
  cases e with
  | key k =>
    simp only [pushVal] at h
    by_cases hpar : parentOf k = p
    · rw [if_pos hpar] at h
      exact Option.noConfusion h
    · rw [if_neg hpar] at h
      have hpre : p.isPrefixOf k = true := by
        by_contra hnp
        unfold immediateChildPfx at h
        rw [if_neg hnp] at h
        exact Option.noConfusion h
      obtain ⟨i, hfs⟩ : ∃ i, firstSlash (k.drop p.length) = some i := by
        rcases hfs : firstSlash (k.drop p.length) with _ | i
        · exfalso
          unfold immediateChildPfx at h
          rw [if_pos hpre] at h
          simp only [hfs] at h
          exact Option.noConfusion h
        · exact ⟨i, rfl⟩
      obtain ⟨u, w, hnu, hu, hkeq, hicp⟩ :=
        immediateChildPfx_some p k hp hv hpre i hfs
      rw [hicp] at h
      injection h with h'
      exact ⟨u, w, hu, hnu, h'.symm, hkeq⟩
  | pfx q0 =>
    simp only [pushVal] at h
    by_cases hpre : p.isPrefixOf q0 = true
    · rw [if_pos hpre] at h
      by_cases hsuf : q0.drop p.length = []
      · rw [if_pos hsuf] at h
        exact Option.noConfusion h
      · rw [if_neg hsuf] at h
        by_cases hcont : ((((q0.drop p.length).reverse.dropWhile
            (fun c => c = '/')).reverse).contains '/') = true
        · rw [if_neg (fun hh => hh hcont)] at h
          exact Option.noConfusion h
        · have hcont' : ((((q0.drop p.length).reverse.dropWhile
              (fun c => c = '/')).reverse).contains '/') = false :=
            Bool.eq_false_iff.mpr hcont
          rw [if_pos (by rw [hcont']; simp)] at h
          injection h with h'
          obtain ⟨seg, hseg, hnm, hshape⟩ :=
            pfx_suffix_shape p q0 hv hp hpre hsuf hcont'
          refine ⟨seg, [], hseg, hnm, ?_, ?_⟩
          · rw [← h', hshape]
          · rw [asStr_pfx, hshape]
    · rw [if_neg hpre] at h
      exact Option.noConfusion h

theorem pushVal_mono (p : Str) (hp : validPfx p) (e1 e2 : ZipEntry)
    (hv1 : entValid e1) (hv2 : entValid e2)
    (hle : strLe e1.asStr e2.asStr = true) (q1 q2 : Str)
    (h1 : pushVal p e1 = some q1) (h2 : pushVal p e2 = some q2) :
    strLe q1 q2 = true := by
  obtain ⟨s1, r1, hs1ne, hs1nm, hq1, he1⟩ := pushVal_shape p hp e1 hv1 q1 h1
  obtain ⟨s2, r2, hs2ne, hs2nm, hq2, he2⟩ := pushVal_shape p hp e2 hv2 q2 h2
  rw [he1, he2] at hle
  rw [hq1, hq2]
  have hlt : strLt (p ++ (s2 ++ '/' :: r2)) (p ++ (s1 ++ '/' :: r1)) = false := by
    rw [strLe] at hle
    cases hb : strLt (p ++ (s2 ++ '/' :: r2)) (p ++ (s1 ++ '/' :: r1))
    · rfl
    · rw [hb] at hle
      simp at hle
  rw [strLt_append_same] at hlt
  have hseg := seg_le s1 s2 r1 r2 hs1nm hs2nm hlt
  rw [strLe, strLt_append_same, hseg]
  rfl

theorem parentOf_decomp (k : Str) :
    k = parentOf k ++ (k.reverse.takeWhile (fun c => c ≠ '/')).reverse := by
  unfold parentOf
  conv_lhs => rw [← List.reverse_reverse k,
    ← List.takeWhile_append_dropWhile (fun c => decide (c ≠ '/')) k.reverse]
  rw [List.reverse_append]

theorem parentOf_isPrefixOf (k : Str) : (parentOf k).isPrefixOf k = true := by
  rw [List.isPrefixOf_iff_prefix]
  exact ⟨(k.reverse.takeWhile (fun c => c ≠ '/')).reverse, (parentOf_decomp k).symm⟩

/-- C5: for every prefix P over a sorted, validated index, `list_dir(P)`
never returns a key or a prefix more than one path segment deeper than P:
every returned key has parent exactly P, every file whose parent is P
appears in the key set, every returned prefix is P extended by exactly one
path segment, every file strictly deeper than one segment below P is
represented by its synthesized immediate-child prefix, and the returned
prefix list has no duplicates (adjacent duplicates are collapsed, and the
sorted order makes duplicates adjacent) — so each deep file is represented
by exactly one prefix, and an explicit directory entry can appear only as
an immediate child of P. -/
theorem listDir_one_segment (sorted : List ZipEntry) (p : Str)
    (hs : sorted.Pairwise entLe)
    (hv : ∀ e ∈ sorted, entValid e)
    (hp : validPfx p) :
    (∀ k ∈ (listDirOp sorted p).1, parentOf k = p) ∧
    (∀ k, ZipEntry.key k ∈ sorted → parentOf k = p → k ∈ (listDirOp sorted p).1) ∧
    (∀ q ∈ (listDirOp sorted p).2,
      ∃ seg, seg ≠ [] ∧ '/' ∉ seg ∧ q = p ++ (seg ++ ['/'])) ∧
    (∀ k, ZipEntry.key k ∈ sorted → p.isPrefixOf k = true → parentOf k ≠ p →
      ∃ cq, immediateChildPfx k p = some cq ∧ cq ∈ (listDirOp sorted p).2) ∧
    (listDirOp sorted p).2.Nodup := by
  have hslice : entriesWithPfx sorted p =
      sorted.filter (fun e => p.isPrefixOf e.asStr) := entriesWithPfx_eq_filter sorted p hs
  have hchar : listDirOp sorted p =
      ((entriesWithPfx sorted p).filterMap (fun e => match e with
        | ZipEntry.key k => if parentOf k = p then some k else none
        | ZipEntry.pfx _ => none),
       dedupAppend [] ((entriesWithPfx sorted p).filterMap (pushVal p))) := by
    unfold listDirOp
    rw [listDirLoop_characterization]
    simp
  have hsmem : ∀ e ∈ entriesWithPfx sorted p, e ∈ sorted ∧ p.isPrefixOf e.asStr = true := by
    intro e he
    rw [hslice] at he
    have := List.mem_filter.mp he
    exact ⟨this.1, by simpa using this.2⟩
  have hspw : (entriesWithPfx sorted p).Pairwise entLe := by
    rw [hslice]
    exact List.Pairwise.sublist (List.filter_sublist sorted) hs
  refine ⟨?_, ?_, ?_, ?_, ?_⟩
  · intro k hk
    rw [hchar] at hk
    obtain ⟨e, he, hfe⟩ := List.mem_filterMap.mp hk
    cases e with
    | key k0 =>
      simp only [] at hfe
      by_cases hpar : parentOf k0 = p
      · rw [if_pos hpar] at hfe
        injection hfe with h'
        rw [← h']
        exact hpar
      · rw [if_neg hpar] at hfe
        exact Option.noConfusion hfe
    | pfx q0 =>
      simp only [] at hfe
      exact Option.noConfusion hfe
  · intro k hk hpar
    rw [hchar]
    refine List.mem_filterMap.mpr ⟨ZipEntry.key k, ?_, by simp only []; rw [if_pos hpar]⟩
    rw [hslice]
    refine List.mem_filter.mpr ⟨hk, ?_⟩
    rw [asStr_key]
    have : p.isPrefixOf k = true := by
      rw [← hpar]
      exact parentOf_isPrefixOf k
    simpa using this
  · intro q hq
    rw [hchar] at hq
    rcases dedupAppend_sub _ _ q hq with h | h
    · simp at h
    · obtain ⟨e, he, hfe⟩ := List.mem_filterMap.mp h
      obtain ⟨hes, _⟩ := hsmem e he
      obtain ⟨seg, rest, h1, h2, h3, _⟩ :=
        pushVal_shape p hp e (hv e hes) q hfe
      exact ⟨seg, h1, h2, h3⟩
  · intro k hk hpre hdeep
    have hkv : validKey k := hv (ZipEntry.key k) hk
    obtain ⟨i, hfs⟩ := firstSlash_of_deep p k hp hkv hpre hdeep
    obtain ⟨u, w, hnu, hu, hkeq, hicp⟩ := immediateChildPfx_some p k hp hkv hpre i hfs
    refine ⟨p ++ (u ++ ['/']), hicp, ?_⟩
    rw [hchar]
    refine dedupAppend_mem _ _ _ (List.mem_filterMap.mpr ⟨ZipEntry.key k, ?_, ?_⟩)
    · rw [hslice]
      refine List.mem_filter.mpr ⟨hk, by rw [asStr_key]; simpa using hpre⟩
    · simp only [pushVal]
      rw [if_neg hdeep]
      exact hicp
  · rw [hchar]
    have hpw : ((entriesWithPfx sorted p).filterMap (pushVal p)).Pairwise
        (fun a b => strLe a b = true) := by
      have hrel : (entriesWithPfx sorted p).Pairwise
          (fun a b => ∀ q1 q2, pushVal p a = some q1 → pushVal p b = some q2 →
            strLe q1 q2 = true) := by
        refine List.Pairwise.imp_of_mem ?_ hspw
        intro a b ha hb hab q1 q2 h1 h2
        exact pushVal_mono p hp a b (hv a (hsmem a ha).1) (hv b (hsmem b hb).1)
          hab q1 q2 h1 h2
      refine List.Pairwise.filterMap (pushVal p) ?_ hrel
      intro a a' hr b hb b' hb'
      exact hr b b' hb hb'
    have hlt : (dedupAppend []
        ((entriesWithPfx sorted p).filterMap (pushVal p))).Pairwise
        (fun a b => strLt a b = true) := by
      refine dedupAppend_pairwise _ [] List.Pairwise.nil hpw ?_
      intro x _ la hla
      simp at hla
    refine List.Pairwise.imp ?_ hlt
    intro a b hab
    intro he
    rw [he, strLt_irrefl] at hab
    exact Bool.noConfusion hab

/-- Witness for C5 at the spec's round-trip scenario index (five files, no
explicit directory entries) under the prefix `a/`. -/
theorem listDir_one_segment_witness :
    (∀ k ∈ (listDirOp
        [ZipEntry.key "a/b/zarr.json".toList, ZipEntry.key "a/c/zarr.json".toList,
         ZipEntry.key "a/d/e/zarr.json".toList, ZipEntry.key "b/zarr.json".toList,
         ZipEntry.key "c/zarr.json".toList] "a/".toList).1,
      parentOf k = "a/".toList) ∧
    (∀ k, ZipEntry.key k ∈
        [ZipEntry.key "a/b/zarr.json".toList, ZipEntry.key "a/c/zarr.json".toList,
         ZipEntry.key "a/d/e/zarr.json".toList, ZipEntry.key "b/zarr.json".toList,
         ZipEntry.key "c/zarr.json".toList] →
      parentOf k = "a/".toList →
      k ∈ (listDirOp
        [ZipEntry.key "a/b/zarr.json".toList, ZipEntry.key "a/c/zarr.json".toList,
         ZipEntry.key "a/d/e/zarr.json".toList, ZipEntry.key "b/zarr.json".toList,
         ZipEntry.key "c/zarr.json".toList] "a/".toList).1) ∧
    (∀ q ∈ (listDirOp
        [ZipEntry.key "a/b/zarr.json".toList, ZipEntry.key "a/c/zarr.json".toList,
         ZipEntry.key "a/d/e/zarr.json".toList, ZipEntry.key "b/zarr.json".toList,
         ZipEntry.key "c/zarr.json".toList] "a/".toList).2,
      ∃ seg, seg ≠ [] ∧ '/' ∉ seg ∧ q = "a/".toList ++ (seg ++ ['/'])) ∧
    (∀ k, ZipEntry.key k ∈
        [ZipEntry.key "a/b/zarr.json".toList, ZipEntry.key "a/c/zarr.json".toList,
         ZipEntry.key "a/d/e/zarr.json".toList, ZipEntry.key "b/zarr.json".toList,
         ZipEntry.key "c/zarr.json".toList] →
      ("a/".toList).isPrefixOf k = true → parentOf k ≠ "a/".toList →
      ∃ cq, immediateChildPfx k "a/".toList = some cq ∧
        cq ∈ (listDirOp
          [ZipEntry.key "a/b/zarr.json".toList, ZipEntry.key "a/c/zarr.json".toList,
           ZipEntry.key "a/d/e/zarr.json".toList, ZipEntry.key "b/zarr.json".toList,
           ZipEntry.key "c/zarr.json".toList] "a/".toList).2) ∧
    (listDirOp
      [ZipEntry.key "a/b/zarr.json".toList, ZipEntry.key "a/c/zarr.json".toList,
       ZipEntry.key "a/d/e/zarr.json".toList, ZipEntry.key "b/zarr.json".toList,
       ZipEntry.key "c/zarr.json".toList] "a/".toList).2.Nodup :=
  listDir_one_segment
    [ZipEntry.key "a/b/zarr.json".toList, ZipEntry.key "a/c/zarr.json".toList,
     ZipEntry.key "a/d/e/zarr.json".toList, ZipEntry.key "b/zarr.json".toList,
     ZipEntry.key "c/zarr.json".toList] "a/".toList
    (by decide) (by decide) (by decide)

end ZarrsZip
